import Mathlib

/-!
Verification of the angolmois BMS chart compiler and playback engine
(src/angolmois.rs) against its natural-language specification.

The source's `f64` times, BPMs and factors are embedded as exact rationals
(`ℚ`); machine integers (`int`/`uint`) are embedded as `Int`/`Nat`, with
two's-complement bit tricks made explicit where the source relies on them.
Every definition mirrors the corresponding Rust item and keeps its name.
-/

set_option maxHeartbeats 1000000
set_option maxRecDepth 100000

--==================================================================================================
-- Data model (src/angolmois.rs, `mod parser`)

/-- `SoundRef(Key)`: a key referencing a sound resource (`Key` wraps `int`). -/
abbrev SoundRef := Int

/-- `ImageRef(Key)`: a key referencing an image resource. -/
abbrev ImageRef := Int

/-- `Lane(uint)`: a lane index (0..71 in practice). -/
abbrev Lane := Nat

/-- `NLANES`: the maximum number of lanes. -/
def NLANES : Nat := 72

/-- `MAXKEY`: the number of possible alphanumeric keys (36*36). -/
def MAXKEY : Int := 36 * 36

/-- `enum BGALayer`. -/
inductive BGALayer
  | Layer1
  | Layer2
  | Layer3
  | PoorBGA
  deriving DecidableEq, Repr

/-- `enum Damage { GaugeDamage(f64), InstantDeath }`. -/
inductive Damage
  | GaugeDamage (ratio : ℚ)
  | InstantDeath
  deriving DecidableEq, Repr

/-- `enum Duration { Seconds(f64), Measures(f64) }`. -/
inductive Duration
  | Seconds (s : ℚ)
  | Measures (m : ℚ)
  deriving DecidableEq, Repr

/-- `enum ObjData`: the typed timeline event payload. -/
inductive ObjData
  | Deleted
  | Visible (lane : Lane) (sref : Option SoundRef)
  | Invisible (lane : Lane) (sref : Option SoundRef)
  | LNStart (lane : Lane) (sref : Option SoundRef)
  | LNDone (lane : Lane) (sref : Option SoundRef)
  | Bomb (lane : Lane) (sref : Option SoundRef) (damage : Damage)
  | BGM (sref : SoundRef)
  | SetBGA (layer : BGALayer) (iref : Option ImageRef)
  | SetBPM (bpm : ℚ)
  | Stop (dur : Duration)
  deriving DecidableEq, Repr

/-- `struct Obj { time: f64, data: ObjData }`. -/
structure Obj where
  time : ℚ
  data : ObjData
  deriving DecidableEq, Repr

/-- `ObjData::is_visible`. -/
def ObjData.is_visible : ObjData → Bool
  | .Visible _ _ => true
  | _ => false

/-- `ObjData::is_lnstart`. -/
def ObjData.is_lnstart : ObjData → Bool
  | .LNStart _ _ => true
  | _ => false

/-- `ObjData::is_lndone`. -/
def ObjData.is_lndone : ObjData → Bool
  | .LNDone _ _ => true
  | _ => false

/-- `ObjData::object_lane`. -/
def ObjData.object_lane : ObjData → Option Lane
  | .Visible lane _ => some lane
  | .Invisible lane _ => some lane
  | .LNStart lane _ => some lane
  | .LNDone lane _ => some lane
  | .Bomb lane _ _ => some lane
  | _ => none

/-- `Obj::is_lnstart` (delegates to the payload). -/
def Obj.is_lnstart (o : Obj) : Bool := o.data.is_lnstart

/-- `Obj::is_lndone`. -/
def Obj.is_lndone (o : Obj) : Bool := o.data.is_lndone

/-- `Obj::object_lane`. -/
def Obj.object_lane (o : Obj) : Option Lane := o.data.object_lane

--==================================================================================================
-- KeyCodec (C7): `getdigit`, `key2index` and the `Key` formatter

/-- `getdigit`: converts a single alphanumeric (base-36) letter to an integer. -/
def getdigit (n : Char) : Option Int :=
  if '0' ≤ n ∧ n ≤ '9' then some ((n.toNat : Int) - ('0'.toNat : Int))
  else if 'a' ≤ n ∧ n ≤ 'z' then some ((n.toNat : Int) - ('a'.toNat : Int) + 10)
  else if 'A' ≤ n ∧ n ≤ 'Z' then some ((n.toNat : Int) - ('A'.toNat : Int) + 10)
  else none

/-- `key2index`: converts the first two letters of `s` to a key index. -/
def key2index (s : List Char) : Option Int :=
  if s.length < 2 then none
  else (getdigit (s.getD 0 ' ')).bind fun a =>
         (getdigit (s.getD 1 ' ')).map fun b => a * 36 + b

/-- The digit map `b"0123456789ABCDEFGHIJKLMNOPQRSTUVWXYZ"` used by the `Key` formatter. -/
def keyCharMap : List Char := "0123456789ABCDEFGHIJKLMNOPQRSTUVWXYZ".toList

/-- `fmt::Show for Key`: the two-letter uppercase zero-padded representation of a valid key. -/
def keyShow (k : Int) : List Char :=
  let sixteens := k / 36
  let ones := k % 36
  [keyCharMap.getD sixteens.toNat ' ', keyCharMap.getD ones.toNat ' ']

/-- ASCII alphanumeric as understood by `getdigit` (0-9, a-z, A-Z). -/
def isAlnumChar (c : Char) : Bool :=
  ('0' ≤ c && c ≤ '9') || ('a' ≤ c && c ≤ 'z') || ('A' ≤ c && c ≤ 'Z')

theorem getdigit_eq_none_iff (c : Char) : getdigit c = none ↔ isAlnumChar c = false := by
  unfold getdigit isAlnumChar
  split
  · rename_i h
    simp only [reduceCtorEq, false_iff]
    simp [h.1, h.2]
  · rename_i h0
    split
    · rename_i h
      simp only [reduceCtorEq, false_iff]
      simp [h.1, h.2]
    · rename_i h1
      split
      · rename_i h
        simp only [reduceCtorEq, false_iff]
        simp [h.1, h.2]
      · rename_i h2
        simp only [true_iff]
        rw [Bool.eq_false_iff]
        intro hcon
        simp only [Bool.or_eq_true, Bool.and_eq_true, decide_eq_true_eq] at hcon
        rcases hcon with (⟨a, b⟩ | ⟨a, b⟩) | ⟨a, b⟩
        · exact h0 ⟨a, b⟩
        · exact h1 ⟨a, b⟩
        · exact h2 ⟨a, b⟩

theorem getdigit_keyCharMap (d : Nat) (hd : d < 36) :
    getdigit (keyCharMap.getD d ' ') = some (d : Int) := by
  interval_cases d <;> decide

/-- Claim C7 (amended): decoding round-trips the two-character encoding for every key in
0..1295, and `key2index` fails on inputs shorter than two characters or whose *first two*
characters contain a non-alphanumeric character. -/
theorem key2index_round_trip (k : Int) (h0 : 0 ≤ k) (h1 : k < 1296) :
    key2index (keyShow k) = some k ∧
    (∀ s : List Char, s.length < 2 → key2index s = none) ∧
    (∀ c0 c1 : Char, ∀ rest : List Char,
      isAlnumChar c0 = false ∨ isAlnumChar c1 = false →
      key2index (c0 :: c1 :: rest) = none) := by
  refine ⟨?_, ?_, ?_⟩
  · have hdiv0 : 0 ≤ k / 36 := Int.ediv_nonneg h0 (by norm_num)
    have hdiv : k / 36 < 36 := by omega
    have hmod0 : 0 ≤ k % 36 := Int.emod_nonneg k (by norm_num)
    have hmod : k % 36 < 36 := Int.emod_lt_of_pos k (by norm_num)
    have e1 : ((k / 36).toNat : Int) = k / 36 := Int.toNat_of_nonneg hdiv0
    have e2 : ((k % 36).toNat : Int) = k % 36 := Int.toNat_of_nonneg hmod0
    have d1 : (k / 36).toNat < 36 := by omega
    have d2 : (k % 36).toNat < 36 := by omega
    unfold keyShow key2index
    rw [if_neg (by simp)]
    simp only [List.getD_cons_zero, List.getD_cons_succ]
    rw [getdigit_keyCharMap _ d1, getdigit_keyCharMap _ d2]
    simp only [Option.some_bind, Option.map_some', Option.some.injEq]
    rw [e1, e2]
    omega
  · intro s hs
    unfold key2index
    rw [if_pos hs]
  · intro c0 c1 rest hbad
    unfold key2index
    rw [if_neg (by simp)]
    simp only [List.getD_cons_zero, List.getD_cons_succ]
    rcases hbad with hb | hb
    · rw [(getdigit_eq_none_iff c0).2 hb]
      rfl
    · rw [(getdigit_eq_none_iff c1).2 hb]
      cases getdigit c0 <;> rfl

theorem key2index_round_trip_witness :
    (0 : Int) ≤ 1295 ∧ (1295 : Int) < 1296 ∧
    key2index (keyShow 1295) = some 1295 ∧
    key2index ['A'] = none ∧
    key2index ['!', '0', '1'] = none := by
  refine ⟨by norm_num, by norm_num, ?_, ?_, ?_⟩
  · exact (key2index_round_trip 1295 (by norm_num) (by norm_num)).1
  · exact (key2index_round_trip 0 (by norm_num) (by norm_num)).2.1 ['A'] (by decide)
  · exact (key2index_round_trip 0 (by norm_num) (by norm_num)).2.2 '!' '0' ['1']
      (Or.inl (by decide))

/-- Claim C7, as frozen, is false: `key2index` inspects only the first two characters, so an
input that contains a non-alphanumeric character later on still decodes successfully. -/
theorem key2index_nonalnum_counterexample :
    ¬ (∀ s : List Char, (∃ c ∈ s, isAlnumChar c = false) → key2index s = none) := by
  intro h
  have := h ['0', '0', '!'] ⟨'!', by decide, by decide⟩
  simp [key2index, getdigit] at this

--==================================================================================================
-- ChartBuilder line buffering and replay order (C3)

/-- `struct BmsLine { measure: uint, chan: Key, data: String }`. -/
structure BmsLine where
  measure : Nat
  chan : Int
  data : String
  deriving DecidableEq, Repr

/-- Lexicographic comparison of pairs, as Rust's derived `Ord` for tuples. -/
def pairCmp (p q : Nat × Int) : Ordering :=
  (compare p.1 q.1).then (compare p.2 q.2)

/-- The comparator passed to `bmsline.sort_by` in `parse_bms_from_reader`:
`(a.measure, b.chan).cmp(&(a.measure, b.chan))`, verbatim from the source. -/
def bmslineCmp (a b : BmsLine) : Ordering :=
  pairCmp (a.measure, b.chan) (a.measure, b.chan)

/-- `bmsline.sort_by(...)`: Rust's stable sort driven by `bmslineCmp` (an element goes before
another whenever the comparator does not answer `Greater`). -/
def sortBmslines (l : List BmsLine) : List BmsLine :=
  l.mergeSort (fun a b => bmslineCmp a b != Ordering.gt)

theorem bmslineCmp_eq (a b : BmsLine) : bmslineCmp a b = Ordering.eq := by
  unfold bmslineCmp pairCmp
  have h1 : compare a.measure a.measure = Ordering.eq := by
    simp [compare_eq_iff_eq]
  have h2 : compare b.chan b.chan = Ordering.eq := by
    simp [compare_eq_iff_eq]
  rw [h1, h2]
  rfl

/-- Claim C3 (refuted; code bug): the comparator compares the tuple
`(a.measure, b.chan)` with itself, so it always answers `Equal` and the stable sort keeps the
original file order; buffered lines are NOT reordered by `(measure, channel)`.  The general
identity is proved, and evaluated on a buffer whose measures are out of order. -/
theorem sortBmslines_is_identity :
    (∀ l : List BmsLine, sortBmslines l = l) ∧
    (sortBmslines [⟨1, 0, "aa"⟩, ⟨0, 0, "bb"⟩]).map BmsLine.measure = [1, 0] := by
  have hid : ∀ l : List BmsLine, sortBmslines l = l := by
    intro l
    apply List.mergeSort_of_sorted
    induction l with
    | nil => exact List.Pairwise.nil
    | cons a l ih =>
      refine List.Pairwise.cons (fun b _ => ?_) ih
      show (bmslineCmp a b != Ordering.gt) = true
      rw [bmslineCmp_eq]
      rfl
  exact ⟨hid, by rw [hid]; rfl⟩

--==================================================================================================
-- BlockPreprocessor: #RANDOM / #SETRANDOM handling (C4)

/-- `enum BlockState { Outside, Process, Ignore, NoFurther }`. -/
inductive BlockState
  | Outside
  | Process
  | Ignore
  | NoFurther
  deriving DecidableEq, Repr

/-- `BlockState::inactive`: `Ignore`/`NoFurther` are inactive. -/
def BlockState.inactive : BlockState → Bool
  | .Outside => false
  | .Process => false
  | .Ignore => true
  | .NoFurther => true

/-- `struct Block { val: Option<int>, state: BlockState, skip: bool }`. -/
structure Block where
  val : Option Int
  state : BlockState
  skip : Bool
  deriving DecidableEq, Repr

/-- `Block::inactive`: `self.skip || self.state.inactive()`. -/
def Block.inactive (b : Block) : Bool := b.skip || b.state.inactive

/-- Which of the two directives `#RANDOM` / `#SETRANDOM` matched the line prefix. -/
inductive RandKind
  | RANDOM
  | SETRANDOM
  deriving DecidableEq, Repr

/-- The `("RANDOM", _) | ("SETRANDOM", _)` arm of `parse_bms_from_reader`, for a line whose
integer argument parsed as `rawval`.  The RNG is abstracted as a state `R` with a
`gen_range(lo, hi)` operation returning a draw and the successor state.  `blk.last().unwrap()`
is total in the parser because the root sentinel block is never popped; the sentinel is used
as the `getD` default here. -/
def handle_random {R : Type} (gen_range : R → Int → Int → Int × R)
    (kind : RandKind) (blk : List Block) (r : R) (rawval : Int) : List Block × R :=
  let val : Option Int := if rawval ≤ 0 then none else some rawval
  let inactive := ((blk.getLast?).getD ⟨none, .Outside, false⟩).inactive
  match val with
  | none => (blk ++ [⟨none, .Outside, inactive⟩], r)
  | some v =>
    if kind = .SETRANDOM then
      (blk ++ [⟨some v, .Outside, inactive⟩], r)
    else if !inactive then
      let (g, r') := gen_range r 1 (v + 1)
      (blk ++ [⟨some g, .Outside, inactive⟩], r')
    else
      (blk ++ [⟨none, .Outside, inactive⟩], r)

/-- Claim C4: for a parsable argument `n`: if `n ≤ 0` the pushed block carries no generated
value and the RNG is untouched; `#SETRANDOM` stores exactly `n` without consuming the RNG;
`#RANDOM` performs exactly one `gen_range(1, n+1)` call (a draw uniform over `[1, n]` by the
RNG contract) when the enclosing block is active, and no call at all when it is inactive.
The RNG is instrumented as a log of `(lo, hi)` call bounds with an arbitrary value function. -/
theorem handle_random_spec (f : Int → Int → List (Int × Int) → Int)
    (kind : RandKind) (blkInit : List Block) (b : Block) (log : List (Int × Int)) (n : Int) :
    handle_random (fun r lo hi => (f lo hi r, (lo, hi) :: r)) kind (blkInit ++ [b]) log n =
      (blkInit ++ [b] ++
        [⟨(if n ≤ 0 then none
           else if kind = .SETRANDOM then some n
           else if b.inactive then none
           else some (f 1 (n + 1) log)), .Outside, b.inactive⟩],
       if n ≤ 0 ∨ kind = .SETRANDOM ∨ b.inactive = true then log else (1, n + 1) :: log) := by
  unfold handle_random
  rw [List.getLast?_concat]
  simp only [Option.getD_some]
  by_cases hn : n ≤ 0
  · simp [hn]
  · simp only [if_neg hn]
    rcases kind with _ | _
    · by_cases hin : b.inactive = true
      · simp [hin, hn]
      · simp only [Bool.not_eq_true] at hin
        simp [hin, hn]
    · simp [hn]

--==================================================================================================
-- GradingEngine (C6, C10): `Player::update_grade` and friends

/-- `enum Grade { MISS=0, BAD=1, GOOD=2, GREAT=3, COOL=4 }`. -/
inductive Grade
  | MISS
  | BAD
  | GOOD
  | GREAT
  | COOL
  deriving DecidableEq, Repr

/-- The discriminant of `Grade` (`grade as uint`). -/
def gradeIdx : Grade → Nat
  | .MISS => 0
  | .BAD => 1
  | .GOOD => 2
  | .GREAT => 3
  | .COOL => 4

/-- `COOL_CUTOFF`: required normalized distance (ms) for at least COOL. -/
def COOL_CUTOFF : ℚ := 14.4

/-- `GREAT_CUTOFF`. -/
def GREAT_CUTOFF : ℚ := 48.0

/-- `GOOD_CUTOFF`. -/
def GOOD_CUTOFF : ℚ := 84.0

/-- `BAD_CUTOFF`. -/
def BAD_CUTOFF : ℚ := 144.0

/-- `MAXGAUGE`: the maximum (internal) value for the gauge. -/
def MAXGAUGE : Int := 512

/-- `SCOREPERNOTE`: base score per exact input. -/
def SCOREPERNOTE : ℚ := 300.0

/-- `MISS_DAMAGE`. -/
def MISS_DAMAGE : Damage := .GaugeDamage 0.059

/-- `BAD_DAMAGE`. -/
def BAD_DAMAGE : Damage := .GaugeDamage 0.030

/-- Rust `f64 as uint` for the score delta: truncation toward zero, here applied only to
non-negative quantities where it coincides with the floor (negative inputs are out of the
defined range of the old-Rust cast). -/
def f64_as_uint (x : ℚ) : Nat := (⌊x⌋).toNat

/-- Rust `f64 as int`: truncation toward zero. -/
def f64_as_int (x : ℚ) : Int := if x < 0 then ⌈x⌉ else ⌊x⌋

/-- The fields of `struct Player` read or written by `update_grade` and
`update_grade_from_distance` (`infos.nnotes` is inlined as a scalar field). -/
structure Player where
  now : ℚ
  nnotes : Int
  gradecounts : Nat → Nat
  lastgrade : Option (Grade × ℚ)
  score : Nat
  lastcombo : Nat
  bestcombo : Nat
  gauge : Int

/-- `Player::update_grade`: updates score and statistics; the returned `Bool` is the
"keep going" flag (`false` signals the instant death). -/
def update_grade (p : Player) (grade : Grade) (scoredelta : ℚ) (damage : Option Damage) :
    Player × Bool :=
  let p1 := { p with
    gradecounts := fun i => if i = gradeIdx grade then p.gradecounts i + 1 else p.gradecounts i,
    lastgrade := some (grade, p.now),
    score := p.score + f64_as_uint (scoredelta * SCOREPERNOTE *
               (1 + (p.lastcombo : ℚ) / (p.nnotes : ℚ))) }
  let p2 := match grade with
    | .MISS | .BAD => { p1 with lastcombo := 0 }
    | .GOOD => p1
    | .GREAT | .COOL =>
      let weight : Int := if grade = Grade.GREAT then 2 else 3
      let cmbbonus : Int := min (p1.lastcombo : Int) 100 / 50
      { p1 with lastcombo := p1.lastcombo + 1,
                gauge := min (p1.gauge + weight + cmbbonus) MAXGAUGE }
  let p3 := { p2 with bestcombo := max p2.bestcombo p2.lastcombo }
  match damage with
  | some (.GaugeDamage ratio) =>
    ({ p3 with gauge := p3.gauge - f64_as_int ((MAXGAUGE : ℚ) * ratio) }, true)
  | some .InstantDeath => ({ p3 with gauge := min p3.gauge 0 }, false)
  | none => (p3, true)

/-- `Player::update_grade_from_distance`: grade and score delta from the normalized
distance; the returned `Bool` is the value fed to `assert!(keepgoing)`. -/
def update_grade_from_distance (p : Player) (dist : ℚ) : Player × Bool :=
  let dist := |dist|
  let gd : Grade × Option Damage :=
    if dist < COOL_CUTOFF then (.COOL, none)
    else if dist < GREAT_CUTOFF then (.GREAT, none)
    else if dist < GOOD_CUTOFF then (.GOOD, none)
    else if dist < BAD_CUTOFF then (.BAD, some BAD_DAMAGE)
    else (.MISS, some MISS_DAMAGE)
  let scoredelta := 1 - dist / BAD_CUTOFF
  let scoredelta := if scoredelta < 0 then 0 else scoredelta
  update_grade p gd.1 scoredelta gd.2

/-- `Player::update_grade_to_miss`: MISS with the standard damage; the returned `Bool` is
the value fed to `assert!(keepgoing)`. -/
def update_grade_to_miss (p : Player) : Player × Bool :=
  update_grade p .MISS 0 (some MISS_DAMAGE)


theorem clamp_zero_eq_max (a : ℚ) : (if a < 0 then 0 else a) = max 0 a := by
  rcases lt_or_le a 0 with h | h
  · rw [if_pos h, max_eq_left h.le]
  · rw [if_neg (not_lt.2 h), max_eq_right h]

theorem update_grade_lastgrade (p : Player) (g : Grade) (sd : ℚ) (d : Option Damage) :
    (update_grade p g sd d).1.lastgrade = some (g, p.now) := by
  rcases d with _ | dmg
  · cases g <;> rfl
  · rcases dmg with r | _ <;> cases g <;> rfl

theorem update_grade_score (p : Player) (g : Grade) (sd : ℚ) (d : Option Damage) :
    (update_grade p g sd d).1.score =
      p.score + f64_as_uint (sd * SCOREPERNOTE *
        (1 + (p.lastcombo : ℚ) / (p.nnotes : ℚ))) := by
  rcases d with _ | dmg
  · cases g <;> rfl
  · rcases dmg with r | _ <;> cases g <;> rfl

theorem update_grade_snd (p : Player) (g : Grade) (sd : ℚ) (d : Option Damage) :
    (update_grade p g sd d).2 = (d != some Damage.InstantDeath) := by
  rcases d with _ | dmg
  · cases g <;> rfl
  · rcases dmg with r | _ <;> cases g <;> rfl

theorem update_grade_gauge_damage (p : Player) (g : Grade) (sd : ℚ) (r : ℚ) :
    (update_grade p g sd (some (.GaugeDamage r))).1.gauge =
      (update_grade p g sd none).1.gauge - f64_as_int ((MAXGAUGE : ℚ) * r) := by
  cases g <;> rfl

theorem update_grade_gauge_death (p : Player) (g : Grade) (sd : ℚ) :
    (update_grade p g sd (some .InstantDeath)).1.gauge =
      min ((update_grade p g sd none).1.gauge) 0 := by
  cases g <;> rfl

/-- Claim C6: `update_grade_from_distance` classifies |dist| by the 14.4/48/84/144 cutoffs
into COOL/GREAT/GOOD/BAD/MISS, and adds to the score exactly
`max(0, 1 - |dist|/144) * 300 * (1 + combo/totalNotes)` truncated to an integer, where
`combo` is the combo count before the update (the truncated quantity is non-negative for a
chart with a positive note count, so floor and truncation agree). -/
theorem update_grade_from_distance_spec (p : Player) (dist : ℚ) (hn : 0 < p.nnotes) :
    ((update_grade_from_distance p dist).1.lastgrade =
      some ((if |dist| < 14.4 then Grade.COOL
             else if |dist| < 48.0 then Grade.GREAT
             else if |dist| < 84.0 then Grade.GOOD
             else if |dist| < 144.0 then Grade.BAD
             else Grade.MISS), p.now)) ∧
    ((update_grade_from_distance p dist).1.score =
      p.score + (⌊max 0 (1 - |dist| / 144) * 300 *
                  (1 + (p.lastcombo : ℚ) / (p.nnotes : ℚ))⌋).toNat) ∧
    0 ≤ max 0 (1 - |dist| / 144) * 300 * (1 + (p.lastcombo : ℚ) / (p.nnotes : ℚ)) := by
  have hfac : (0 : ℚ) ≤ 1 + (p.lastcombo : ℚ) / (p.nnotes : ℚ) := by
    have h1 : (0 : ℚ) ≤ (p.lastcombo : ℚ) := by positivity
    have h2 : (0 : ℚ) < (p.nnotes : ℚ) := by exact_mod_cast hn
    positivity
  have hnonneg : 0 ≤ max 0 (1 - |dist| / 144) * 300 *
      (1 + (p.lastcombo : ℚ) / (p.nnotes : ℚ)) := by
    apply mul_nonneg (mul_nonneg (le_max_left 0 _) (by norm_num)) hfac
  refine ⟨?_, ?_, hnonneg⟩
  · show ((update_grade_from_distance p dist).1.lastgrade = _)
    unfold update_grade_from_distance
    rw [update_grade_lastgrade]
    unfold COOL_CUTOFF GREAT_CUTOFF GOOD_CUTOFF BAD_CUTOFF
    by_cases h1 : |dist| < 14.4
    · simp only [if_pos h1]
    · simp only [if_neg h1]
      by_cases h2 : |dist| < 48.0
      · simp only [if_pos h2]
      · simp only [if_neg h2]
        by_cases h3 : |dist| < 84.0
        · simp only [if_pos h3]
        · simp only [if_neg h3]
          by_cases h4 : |dist| < 144.0
          · simp only [if_pos h4]
          · simp only [if_neg h4]
  · unfold update_grade_from_distance
    rw [update_grade_score]
    unfold BAD_CUTOFF SCOREPERNOTE f64_as_uint
    rw [clamp_zero_eq_max]
    norm_num

theorem update_grade_from_distance_spec_witness :
    (0 : Int) < 3 ∧
    ((update_grade_from_distance
        ⟨0, 3, fun _ => 0, none, 0, 1, 1, 100⟩ 50).1.lastgrade = some (Grade.GOOD, 0)) := by
  have h := update_grade_from_distance_spec ⟨0, 3, fun _ => 0, none, 0, 1, 1, 100⟩ 50
    (by norm_num)
  refine ⟨by norm_num, ?_⟩
  rw [h.1]
  norm_num

/-- Claim C10: `update_grade` returns `false` exactly on `InstantDeath` (clamping the gauge
to at most zero); `GaugeDamage(ratio)` subtracts `floor(512 * ratio)` (floor agrees with the
source's truncation on the data model's non-negative ratios) from the post-bookkeeping gauge
with no lower bound and returns `true`; hence the `assert!(keepgoing)` in
`update_grade_from_distance` and `update_grade_to_miss` always holds. -/
theorem update_grade_stop_iff (p : Player) (grade : Grade) (sd : ℚ)
    (damage : Option Damage) (dist ratio : ℚ) (hr : 0 ≤ ratio) :
    ((update_grade p grade sd damage).2 = false ↔ damage = some .InstantDeath) ∧
    ((update_grade p grade sd (some .InstantDeath)).1.gauge =
        min ((update_grade p grade sd none).1.gauge) 0 ∧
      (update_grade p grade sd (some .InstantDeath)).1.gauge ≤ 0) ∧
    ((update_grade p grade sd (some (.GaugeDamage ratio))).1.gauge =
        (update_grade p grade sd none).1.gauge - ⌊(512 : ℚ) * ratio⌋ ∧
      (update_grade p grade sd (some (.GaugeDamage ratio))).2 = true) ∧
    (update_grade_from_distance p dist).2 = true ∧
    (update_grade_to_miss p).2 = true := by
  refine ⟨?_, ⟨update_grade_gauge_death p grade sd, ?_⟩, ⟨?_, ?_⟩, ?_, ?_⟩
  · rw [update_grade_snd]
    rcases damage with _ | dmg
    · simp
    · rcases dmg with r | _ <;> simp
  · rw [update_grade_gauge_death]
    exact min_le_right _ _
  · rw [update_grade_gauge_damage]
    have hcast : ((MAXGAUGE : Int) : ℚ) = 512 := by unfold MAXGAUGE; norm_num
    rw [hcast]
    unfold f64_as_int
    rw [if_neg (not_lt.2 (by positivity))]
  · rw [update_grade_snd]
    rfl
  · unfold update_grade_from_distance
    rw [update_grade_snd]
    by_cases h1 : |dist| < COOL_CUTOFF
    · simp only [if_pos h1]; rfl
    · simp only [if_neg h1]
      by_cases h2 : |dist| < GREAT_CUTOFF
      · simp only [if_pos h2]; rfl
      · simp only [if_neg h2]
        by_cases h3 : |dist| < GOOD_CUTOFF
        · simp only [if_pos h3]; rfl
        · simp only [if_neg h3]
          by_cases h4 : |dist| < BAD_CUTOFF
          · simp only [if_pos h4]; rfl
          · simp only [if_neg h4]; rfl
  · unfold update_grade_to_miss
    rw [update_grade_snd]
    rfl

theorem update_grade_stop_iff_witness :
    (0 : ℚ) ≤ 1/2 ∧
    ((update_grade ⟨0, 3, fun _ => 0, none, 0, 0, 0, 100⟩ Grade.MISS 0
        (some (.GaugeDamage (1/2)))).1.gauge =
      (update_grade ⟨0, 3, fun _ => 0, none, 0, 0, 0, 100⟩ Grade.MISS 0 none).1.gauge - 256) := by
  have h := update_grade_stop_iff ⟨0, 3, fun _ => 0, none, 0, 0, 0, 100⟩ Grade.MISS 0
    none 0 (1/2) (by norm_num)
  refine ⟨by norm_num, ?_⟩
  rw [h.2.2.1.1]
  norm_num

--==================================================================================================
-- Timeline measure-scaling transforms (C5) and chart duration (C9)

/-- `Bms::shorten`: the scaling factor of a measure; 1.0 for out-of-range measures. -/
def shorten (shortens : List ℚ) (measure : Int) : ℚ :=
  if measure < 0 || shortens.length ≤ measure.toNat then 1
  else shortens.getD measure.toNat 1

/-- The `for i in range(basemeasure, timemeasure)` accumulation inside
`Bms::adjust_object_position` (empty when the upper bound does not exceed the lower). -/
def sumShorten (shortens : List ℚ) (a b : Int) : ℚ :=
  ((List.range (b - a).toNat).map (fun (k : Nat) => shorten shortens (a + (k : Int)))).sum

/-- `Bms::adjust_object_position`: the scaling-weighted distance from `base` to `time`. -/
def adjust_object_position (shortens : List ℚ) (base time : ℚ) : ℚ :=
  let basemeasure : Int := ⌊base⌋
  let timemeasure : Int := ⌊time⌋
  let basefrac := base - (basemeasure : ℚ)
  let timefrac := time - (timemeasure : ℚ)
  timefrac * shorten shortens timemeasure - basefrac * shorten shortens basemeasure +
    sumShorten shortens basemeasure timemeasure

/-- The `while offset >= curshorten` loop of `Bms::adjust_object_time`.  The positivity of
every stored factor (the claim's hypothesis) is carried as an argument because the source
loop does not terminate otherwise. -/
def adjTimeLoop (shortens : List ℚ) (hpos : ∀ x ∈ shortens, 0 < x) (offset : ℚ)
    (i : Int) : ℚ :=
  let curshorten := shorten shortens i
  if offset ≥ curshorten then
    adjTimeLoop shortens hpos (offset - curshorten) (i + 1)
  else
    (i : ℚ) + offset / curshorten
  termination_by ((shortens.length : Int) - i).toNat + (⌈offset⌉).toNat
  decreasing_by
    have hcur : 0 < shorten shortens i := by
      unfold shorten
      split
      · norm_num
      · rename_i hcond
        simp only [Bool.or_eq_true, decide_eq_true_eq, not_or, not_lt, not_le] at hcond
        have hin : i.toNat < shortens.length := hcond.2
        have := hpos (shortens.getD i.toNat 1) (by
          rw [List.getD_eq_getElem _ _ hin]
          exact List.getElem_mem hin)
        exact this
    rename_i hge
    have hge2 : shorten shortens i ≤ offset := hge
    show ((shortens.length : Int) - (i + 1)).toNat + (⌈offset - shorten shortens i⌉).toNat <
      ((shortens.length : Int) - i).toNat + (⌈offset⌉).toNat
    have hofu : 0 < ⌈offset⌉ := by
      have h0 : (0 : ℚ) < offset := lt_of_lt_of_le hcur hge2
      exact Int.ceil_pos.2 h0
    have hmono : ⌈offset - shorten shortens i⌉ ≤ ⌈offset⌉ := by
      apply Int.ceil_le_ceil
      linarith
    by_cases hi : (shortens.length : Int) - i ≤ 0
    · -- out of table range: curshorten = 1, the ceiling strictly decreases
      have hlen : shortens.length ≤ i.toNat ∨ i < 0 := by
        rcases lt_or_le i 0 with h | h
        · exact Or.inr h
        · left; omega
      have hcur1 : shorten shortens i = 1 := by
        unfold shorten
        rcases hlen with h | h
        · rcases lt_or_le i 0 with h2 | h2
          · rw [if_pos]; simp [h2]
          · rw [if_pos]; simp [h]
        · rw [if_pos]; simp [h]
      have hstep : ⌈offset - shorten shortens i⌉ = ⌈offset⌉ - 1 := by
        rw [hcur1]
        rw [show offset - 1 = offset + (-1 : Int) from by push_cast; ring]
        rw [Int.ceil_add_int]
        omega
      have h1 : ⌈offset⌉ ≥ 1 := hofu
      omega
    · -- inside the table: the index term strictly decreases, the ceiling cannot grow
      push_neg at hi
      have ht1 : (((shortens.length : Int) - (i + 1)).toNat) <
          (((shortens.length : Int) - i).toNat) := by omega
      have ht2 : (⌈offset - shorten shortens i⌉).toNat ≤ (⌈offset⌉).toNat := by
        omega
      omega

/-- `Bms::adjust_object_time`: the virtual time `offset` scaled measures away from `base`. -/
def adjust_object_time (shortens : List ℚ) (hpos : ∀ x ∈ shortens, 0 < x)
    (base offset : ℚ) : ℚ :=
  let basemeasure : Int := ⌊base⌋
  let baseshorten := shorten shortens basemeasure
  let basefrac := base - (basemeasure : ℚ)
  let tonextmeasure := (1 - basefrac) * baseshorten
  if offset < tonextmeasure then
    base + offset / baseshorten
  else
    adjTimeLoop shortens hpos (offset - tonextmeasure) (basemeasure + 1)

/-- `BPM::measure_to_msec`: `measure * 240000.0 / bpm`. -/
def measure_to_msec (bpm measure : ℚ) : ℚ := measure * 240000 / bpm

/-- `Duration::to_msec`. -/
def Duration.to_msec (d : Duration) (bpm : ℚ) : ℚ :=
  match d with
  | .Seconds secs => secs * 1000
  | .Measures measures => measure_to_msec bpm measures

/-- The fields of `struct Bms` used by `bms_duration` (and the sanitizer). -/
structure Bms where
  initbpm : ℚ
  objs : List Obj
  shortens : List ℚ
  nmeasures : Nat

/-- The `for obj in bms.objs.iter()` loop of `bms_duration`, threading
`(pos, bpm, time, sndtime)` and stopping early at a negative BPM change.
Note the verbatim `if sndtime > sndend { sndtime = sndend; }` comparison. -/
def bms_duration_loop (shortens : List ℚ) (originoffset : ℚ)
    (sound_length : SoundRef → ℚ) :
    List Obj → ℚ → ℚ → ℚ → ℚ → ℚ × ℚ × ℚ × ℚ
  | [], pos, bpm, time, sndtime => (pos, bpm, time, sndtime)
  | o :: rest, pos, bpm, time, sndtime =>
    let delta := adjust_object_position shortens pos o.time
    let time := time + measure_to_msec bpm delta
    match o.data with
    | .Visible _ (some sref) =>
      let sndend := time + sound_length sref * 1000
      let sndtime := if sndtime > sndend then sndend else sndtime
      bms_duration_loop shortens originoffset sound_length rest o.time bpm time sndtime
    | .LNStart _ (some sref) =>
      let sndend := time + sound_length sref * 1000
      let sndtime := if sndtime > sndend then sndend else sndtime
      bms_duration_loop shortens originoffset sound_length rest o.time bpm time sndtime
    | .BGM sref =>
      let sndend := time + sound_length sref * 1000
      let sndtime := if sndtime > sndend then sndend else sndtime
      bms_duration_loop shortens originoffset sound_length rest o.time bpm time sndtime
    | .SetBPM newbpm =>
      if newbpm > 0 then
        bms_duration_loop shortens originoffset sound_length rest o.time newbpm time sndtime
      else if newbpm < 0 then
        let delta := adjust_object_position shortens originoffset pos
        (pos, newbpm, time + measure_to_msec (-newbpm) delta, sndtime)
      else
        bms_duration_loop shortens originoffset sound_length rest o.time bpm time sndtime
    | .Stop dur =>
      bms_duration_loop shortens originoffset sound_length rest o.time bpm
        (time + dur.to_msec bpm) sndtime
    | _ =>
      bms_duration_loop shortens originoffset sound_length rest o.time bpm time sndtime

/-- `bms_duration`: the duration of the chart in seconds, given the audio-duration
collaborator `sound_length`. -/
def bms_duration (bms : Bms) (originoffset : ℚ) (sound_length : SoundRef → ℚ) : ℚ :=
  let r := bms_duration_loop bms.shortens originoffset sound_length bms.objs
             originoffset bms.initbpm 0 0
  let pos := r.1
  let bpm := r.2.1
  let time := r.2.2.1
  let sndtime := r.2.2.2
  let time :=
    if bpm > 0 then
      time + measure_to_msec bpm
        (adjust_object_position bms.shortens pos ((bms.nmeasures : ℚ) + 1))
    else time
  (if time > sndtime then time else sndtime) / 1000

--==================================================================================================
-- LaneModifier (C8): `apply_random_modf`

/-- `update_object_lane`: applies `f` to the lane of lane-carrying objects. -/
def update_object_lane (o : Obj) (f : Lane → Lane) : Obj :=
  { o with data := match o.data with
    | .Visible lane sref => .Visible (f lane) sref
    | .Invisible lane sref => .Invisible (f lane) sref
    | .LNStart lane sref => .LNStart (f lane) sref
    | .LNDone lane sref => .LNDone (f lane) sref
    | .Bomb lane sref damage => .Bomb (f lane) sref damage
    | objdata => objdata }

/-- `Vec::swap_remove(i)`: replace element `i` with the last element and pop. -/
def swap_remove (l : List Lane) (i : Nat) : List Lane :=
  match l.getLast? with
  | none => l
  | some last => (l.set i last).dropLast

/-- The `map[from] = to` assignment loop zipping `movable` with its shuffle. -/
def applyMap (map : List Lane) (movable shuffled : List Lane) : List Lane :=
  (movable.zip shuffled).foldl (fun m ft => m.set ft.1 ft.2) map

/-- `lasttime < obj.time` where `lasttime` starts at `f64::NEG_INFINITY` (modelled as
`none`). -/
def ltOpt (lasttime : Option ℚ) (x : ℚ) : Bool :=
  match lasttime with
  | none => true
  | some t => decide (t < x)

/-- `Iterator::position`: index of the first element satisfying `p`. -/
def position (p : Lane → Bool) : List Lane → Option Nat
  | [] => none
  | x :: l => if p x then some 0 else (position p l).map (· + 1)

/-- The per-object loop of `apply_random_modf`.  `shuffle` abstracts `r.shuffle` (an
in-place random permutation).  The `None => panic!("non-sanitized BMS detected")` arm is
modelled as a no-op; it is unreachable on sanitized charts. -/
def apply_random_modf_go (shuffle : List Lane → List Lane) :
    List Obj → List Lane → List Lane → Option ℚ → List Obj
  | [], _, _, _ => []
  | o :: rest, movable, map, lasttime =>
    let movable1 :=
      if o.is_lnstart then
        match position (fun j => j == (o.object_lane).getD 0) movable with
        | some i => swap_remove movable i
        | none => movable
      else movable
    let ml : List Lane × Option ℚ :=
      if ltOpt lasttime o.time then
        let shuffled := shuffle movable1
        (applyMap map movable1 shuffled, some (o.time + 1/10000))
      else (map, lasttime)
    let map1 := ml.1
    let lasttime1 := ml.2
    let movable2 :=
      if o.is_lnstart then movable1 ++ [(o.object_lane).getD 0] else movable1
    update_object_lane o (fun lane => map1.getD lane lane) ::
      apply_random_modf_go shuffle rest movable2 map1 lasttime1

/-- `apply_random_modf`: per-advance random lane permutation over `lanes`. -/
def apply_random_modf (shuffle : List Lane → List Lane) (objs : List Obj)
    (lanes : List Lane) : List Obj :=
  apply_random_modf_go shuffle objs lanes (List.range NLANES) none

/-- Claim C9 (refuted; code bug): `bms_duration` is supposed to return the maximum of the
scroll-end time and every started sound's end time, but the update
`if sndtime > sndend { sndtime = sndend; }` takes a minimum, so sound tails are dropped.
On a chart at BPM 120 with a single BGM at time 0 whose sound lasts 10 seconds and whose
scrolling ends after 2 seconds, the code returns 2 where the claim demands 10. -/
theorem bms_duration_drops_sound_tail :
    bms_duration ⟨120, [⟨0, .BGM 1⟩], [], 0⟩ 0 (fun _ => 10) = 2 ∧
    bms_duration ⟨120, [⟨0, .BGM 1⟩], [], 0⟩ 0 (fun _ => 10) < 10 := by
  have h : bms_duration ⟨120, [⟨0, .BGM 1⟩], [], 0⟩ 0 (fun _ => 10) = 2 := by
    simp only [bms_duration, bms_duration_loop, adjust_object_position, sumShorten,
      shorten, measure_to_msec]
    norm_num [List.range_succ, List.range_zero, List.map_append, List.map_cons,
      List.map_nil, List.sum_append, List.sum_cons, List.sum_nil]
  exact ⟨h, by rw [h]; norm_num⟩

--==================================================================================================
-- Sanitizer (C1, C2): `remove_or_replace_note`, `sanitize`, `sanitize_bms`

/-- `remove_or_replace_note`: demotes an object to BGM (when it carries a sound) or to the
`Deleted` tombstone. -/
def remove_or_replace_note (o : Obj) : Obj :=
  { o with data := match o.data with
    | .Visible _ (some sref) => .BGM sref
    | .Invisible _ (some sref) => .BGM sref
    | .LNStart _ (some sref) => .BGM sref
    | .LNDone _ (some sref) => .BGM sref
    | _ => .Deleted }

/-- The inner `while j < len && objs[j].time <= cur` loop of `fn sanitize`:
returns the processed run, the accumulated `types` bitmask, and the untouched suffix. -/
def scanRun (toType : Obj → Option Nat) (cur : ℚ) :
    List Obj → Nat → List Obj × Nat × List Obj
  | [], types => ([], types, [])
  | o :: rest, types =>
    if o.time ≤ cur then
      match toType o with
      | some t =>
        if types &&& (1 <<< t) != 0 then
          let r := scanRun toType cur rest types
          (remove_or_replace_note o :: r.1, r.2)
        else
          let r := scanRun toType cur rest (types ||| (1 <<< t))
          (o :: r.1, r.2)
      | none =>
        let r := scanRun toType cur rest types
        (o :: r.1, r.2)
    else ([], types, o :: rest)

/-- The second `while i < j` loop of `fn sanitize`: demotes every object whose type bit was
cleared by `merge_types` (`to_type` is re-read from the possibly already demoted object,
exactly as in the source). -/
def filterRun (toType : Obj → Option Nat) (types : Nat) (run : List Obj) : List Obj :=
  run.map fun o => match toType o with
    | some t => if types &&& (1 <<< t) == 0 then remove_or_replace_note o else o
    | none => o

/-- `fn sanitize(objs, to_type, merge_types)`, parametric in the state `σ` threaded through
the `merge_types` closure (`Bool` for the per-lane "inside an LN" flag, `Unit` for the
state-free effect pass).  The outer `while i < len` loop runs at most `len` times because
each run consumes at least one object (`objs[i].time <= cur` holds for `j = i`); it is
realized structurally with `fuel = len`. -/
def sanitizeFuel {σ : Type} (toType : Obj → Option Nat) (merge : σ → Nat → Nat × σ) :
    Nat → List Obj → σ → List Obj × σ
  | _, [], s => ([], s)
  | 0, _ :: _, s => ([], s)
  | fuel + 1, o :: rest, s =>
    let r := scanRun toType o.time (o :: rest) 0
    let ts := merge s r.2.1
    let run1 := filterRun toType ts.1 r.1
    let tail := sanitizeFuel toType merge fuel r.2.2 ts.2
    (run1 ++ tail.1, tail.2)

/-- `fn sanitize` proper (the fuel is always sufficient; see `sanitize_cons`). -/
def sanitize {σ : Type} (toType : Obj → Option Nat) (merge : σ → Nat → Nat × σ)
    (objs : List Obj) (s : σ) : List Obj × σ :=
  sanitizeFuel toType merge objs.length objs s

/-- The per-lane type constants of `sanitize_bms`. -/
def LNDONE : Nat := 0

/-- `LNSTART`. -/
def LNSTART : Nat := 1

/-- `VISIBLE`. -/
def VISIBLE : Nat := 2

/-- `INVISIBLE`. -/
def INVISIBLE : Nat := 3

/-- `BOMB`. -/
def BOMB : Nat := 4

/-- The per-lane `to_type` closure of `sanitize_bms`. -/
def to_type (lane0 : Lane) (o : Obj) : Option Nat :=
  match o.data with
  | .Visible lane _ => if lane = lane0 then some VISIBLE else none
  | .Invisible lane _ => if lane = lane0 then some INVISIBLE else none
  | .LNStart lane _ => if lane = lane0 then some LNSTART else none
  | .LNDone lane _ => if lane = lane0 then some LNDONE else none
  | .Bomb lane _ _ => if lane = lane0 then some BOMB else none
  | _ => none

/-- Width of Rust's (64-bit) `int`, for the two's-complement bit tricks below. -/
def IWIDTH : Nat := 2 ^ 64

/-- Bitwise NOT `!x` of a 64-bit pattern. -/
def inot (x : Nat) : Nat := IWIDTH - 1 - x

/-- Two's-complement negation `-x` of a 64-bit pattern. -/
def ineg (x : Nat) : Nat := (IWIDTH - x) % IWIDTH

/-- `LNMASK`. -/
def LNMASK : Nat := (1 <<< LNSTART) ||| (1 <<< LNDONE)

/-- The per-lane `merge_types` closure of `sanitize_bms` (the captured mutable `inside`
flag is threaded explicitly). -/
def merge_types (inside : Bool) (types : Nat) : Nat × Bool :=
  let types := if types &&& LNMASK == LNMASK then types &&& inot LNMASK else types
  let types :=
    if inside then types &&& inot ((1 <<< LNSTART) ||| (1 <<< VISIBLE) ||| (1 <<< BOMB))
    else types &&& inot (1 <<< LNDONE)
  let types := if types &&& LNMASK != 0 then types &&& inot (1 <<< INVISIBLE) else types
  let lowest := types &&& ineg types
  let types :=
    if lowest == 1 <<< INVISIBLE then lowest ||| (types &&& (1 <<< BOMB)) else lowest
  let inside :=
    if types &&& (1 <<< LNSTART) != 0 then true
    else if types &&& (1 <<< LNDONE) != 0 then false
    else inside
  (types, inside)

/-- The `to_type` closure of the second, state-free `sanitize` pass (BGA layers, BPM,
stops). -/
def to_type_eff (o : Obj) : Option Nat :=
  match o.data with
  | .SetBGA .Layer1 _ => some 0
  | .SetBGA .Layer2 _ => some 1
  | .SetBGA .Layer3 _ => some 2
  | .SetBGA .PoorBGA _ => some 3
  | .SetBPM _ => some 4
  | .Stop _ => some 5
  | _ => none

/-- `Vec::rposition`: index of the last element satisfying `p`. -/
def rposition (p : Obj → Bool) : List Obj → Option Nat
  | [] => none
  | o :: l =>
    match rposition p l with
    | some i => some (i + 1)
    | none => if p o then some 0 else none

/-- The default object used to make list indexing total (never actually read at the
in-bounds positions produced by `rposition`). -/
def dObj : Obj := ⟨0, .Deleted⟩

/-- The `if inside { ... }` fix of `sanitize_bms`: demote the last lane-typed object when
it is an unfinished `LNStart`. -/
def fix_unfinished (lane0 : Lane) (objs : List Obj) : List Obj :=
  match rposition (fun o => (to_type lane0 o).isSome) objs with
  | some pos =>
    if (objs.getD pos dObj).is_lnstart then
      objs.set pos (remove_or_replace_note (objs.getD pos dObj))
    else objs
  | none => objs

/-- One iteration of the `for lane in range(0, NLANES)` loop of `sanitize_bms`. -/
def lane_pass (lane0 : Lane) (objs : List Obj) : List Obj :=
  let r := sanitize (to_type lane0) (fun inside types => merge_types inside types) objs false
  if r.2 then fix_unfinished lane0 r.1 else r.1

/-- `sanitize_bms`: sort by time, run the per-lane passes, then the state-free effect
pass. -/
def sanitize_bms (objs : List Obj) : List Obj :=
  let objs := objs.mergeSort (fun a b => decide (a.time ≤ b.time))
  let objs := (List.range NLANES).foldl (fun acc lane => lane_pass lane acc) objs
  (sanitize to_type_eff (fun s types => (types, s)) objs ()).1

/-- Claim C8 (refuted; code bug): `apply_random_modf` re-inserts an LN's lane into the
reassignable pool immediately after the reshuffle at the `LNStart` itself (the push-back is
guarded by `is_lnstart`, not by `is_lndone`), so a later reshuffle occurring before the
`LNDone` can remap the lane.  On the sanitized chart
`[LNStart lane0 at 0, Visible lane1 at 1, LNDone lane0 at 2]` with the reversal permutation
standing in for `r.shuffle`, the `LNStart` stays in lane 0 but its `LNDone` is moved to
lane 1 (and the intervening `Visible` is moved into lane 0, inside the long note). -/
theorem apply_random_modf_splits_ln :
    sanitize_bms [⟨0, .LNStart 0 none⟩, ⟨1, .Visible 1 none⟩, ⟨2, .LNDone 0 none⟩] =
      [⟨0, .LNStart 0 none⟩, ⟨1, .Visible 1 none⟩, ⟨2, .LNDone 0 none⟩] ∧
    apply_random_modf List.reverse
      [⟨0, .LNStart 0 none⟩, ⟨1, .Visible 1 none⟩, ⟨2, .LNDone 0 none⟩] [0, 1] =
      [⟨0, .LNStart 0 none⟩, ⟨1, .Visible 0 none⟩, ⟨2, .LNDone 1 none⟩] := by
  constructor
  · unfold sanitize_bms
    rw [List.mergeSort_of_sorted (by decide)]
    decide
  · simp only [apply_random_modf, apply_random_modf_go, position, swap_remove, applyMap,
      ltOpt, update_object_lane, NLANES, Obj.is_lnstart, ObjData.is_lnstart,
      Obj.object_lane, ObjData.object_lane]
    norm_num [List.range_succ]

--==================================================================================================
-- Sanitizer invariants: helper predicates

/-- Number of retained objects of per-pass type `ty` in `l`. -/
def cntTy (tT : Obj → Option Nat) (ty : Nat) (l : List Obj) : Nat :=
  (l.filter (fun o => tT o == some ty)).length

/-- Number of retained objects of type `ty` at the exact instant `c`. -/
def cntTyAt (tT : Obj → Option Nat) (ty : Nat) (c : ℚ) (l : List Obj) : Nat :=
  (l.filter (fun o => o.time == c && tT o == some ty)).length

/-- The retained long-note events of lane `lane0`, in order. -/
def lnOf (lane0 : Lane) (l : List Obj) : List Obj :=
  l.filter (fun o => to_type lane0 o == some LNSTART || to_type lane0 o == some LNDONE)

/-- Proper alternation of LN events starting from the given open flag: while closed the
next event must be an `LNStart`, while open an `LNDone`. -/
def chainFrom : Bool → List Obj → Bool
  | _, [] => true
  | false, o :: rest => o.data.is_lnstart && chainFrom true rest
  | true, o :: rest => o.data.is_lndone && chainFrom false rest

/-- The open flag after consuming an alternating event list. -/
def chainState (inside : Bool) (l : List Obj) : Bool :=
  if l.length % 2 = 0 then inside else !inside

/-- One sanitizer pass only demotes objects recognized by its own `to_type` (to `BGM` or
`Deleted`, keeping the time); every other object is untouched. -/
def demotedP (P : Obj → Prop) (a b : Obj) : Prop :=
  b = a ∨ (P a ∧ b.time = a.time ∧ (b.data = .Deleted ∨ ∃ s, b.data = .BGM s))

/-- Pointwise invariance of lane `lane0`: objects typed for `lane0` are untouched and
untyped objects stay untyped. -/
def fixedL (lane0 : Lane) (a b : Obj) : Prop :=
  (to_type lane0 a ≠ none → b = a) ∧ (to_type lane0 a = none → to_type lane0 b = none)

--==================================================================================================
-- Sanitizer invariants: basic lemmas

theorem remove_time (o : Obj) : (remove_or_replace_note o).time = o.time := rfl

theorem remove_data (o : Obj) :
    (remove_or_replace_note o).data = .Deleted ∨
      ∃ s, (remove_or_replace_note o).data = .BGM s := by
  unfold remove_or_replace_note
  rcases o with ⟨t, d⟩
  rcases d with _ | ⟨l, s⟩ | ⟨l, s⟩ | ⟨l, s⟩ | ⟨l, s⟩ | ⟨l, s, dm⟩ | s | ⟨ly, i⟩ | b | du <;>
    first
      | exact Or.inl rfl
      | (rcases s with _ | s
         · exact Or.inl rfl
         · exact Or.inr ⟨s, rfl⟩)

theorem to_type_none_of_bgm_deleted (lane0 : Lane) (o : Obj)
    (h : o.data = .Deleted ∨ ∃ s, o.data = .BGM s) : to_type lane0 o = none := by
  unfold to_type
  rcases h with h | ⟨s, h⟩ <;> rw [h]

theorem to_type_eff_none_of_bgm_deleted (o : Obj)
    (h : o.data = .Deleted ∨ ∃ s, o.data = .BGM s) : to_type_eff o = none := by
  unfold to_type_eff
  rcases h with h | ⟨s, h⟩ <;> rw [h]

theorem to_type_remove (lane0 : Lane) (o : Obj) :
    to_type lane0 (remove_or_replace_note o) = none :=
  to_type_none_of_bgm_deleted lane0 _ (remove_data o)

theorem to_type_eff_remove (o : Obj) :
    to_type_eff (remove_or_replace_note o) = none :=
  to_type_eff_none_of_bgm_deleted _ (remove_data o)

theorem to_type_small (lane0 : Lane) (o : Obj) (t : Nat) (h : to_type lane0 o = some t) :
    t < 6 := by
  rcases o with ⟨tm, d⟩
  rcases d with _ | ⟨l, s⟩ | ⟨l, s⟩ | ⟨l, s⟩ | ⟨l, s⟩ | ⟨l, s, dm⟩ | s | ⟨ly, i⟩ | b | du
  all_goals simp only [to_type] at h
  all_goals
    first
      | exact Option.noConfusion h
      | (split at h
         · injection h with h
           subst h
           norm_num [VISIBLE, INVISIBLE, LNSTART, LNDONE, BOMB]
         · exact Option.noConfusion h)

theorem to_type_eff_small (o : Obj) (t : Nat) (h : to_type_eff o = some t) : t < 6 := by
  rcases o with ⟨tm, d⟩
  rcases d with _ | ⟨l, s⟩ | ⟨l, s⟩ | ⟨l, s⟩ | ⟨l, s⟩ | ⟨l, s, dm⟩ | s | ⟨ly, i⟩ | b | du
  case SetBGA =>
    rcases ly with _ | _ | _ | _ <;>
      (simp only [to_type_eff] at h; injection h with h; omega)
  all_goals simp only [to_type_eff] at h
  all_goals
    first
      | exact Option.noConfusion h
      | (injection h with h; omega)

/-- Bit test formulated through `Nat.testBit`. -/
theorem and_one_shift_ne (x t : Nat) : (x &&& (1 <<< t) != 0) = x.testBit t := by
  rw [Nat.one_shiftLeft, Nat.and_two_pow]
  rcases h : x.testBit t with _ | _ <;> simp [h, Nat.pow_pos]

theorem and_one_shift_eq (x t : Nat) : (x &&& (1 <<< t) == 0) = !x.testBit t := by
  rw [Nat.one_shiftLeft, Nat.and_two_pow]
  rcases h : x.testBit t with _ | _ <;> simp [h, Nat.pow_pos]

theorem demotedP_remove {P : Obj → Prop} (o : Obj) (h : P o) :
    demotedP P o (remove_or_replace_note o) :=
  Or.inr ⟨h, remove_time o, remove_data o⟩

theorem demotedP_refl {P : Obj → Prop} (o : Obj) : demotedP P o o := Or.inl rfl

theorem demotedP_time {P : Obj → Prop} {a b : Obj} (h : demotedP P a b) :
    b.time = a.time := by
  rcases h with rfl | ⟨_, ht, _⟩
  · rfl
  · exact ht

theorem scanRun_len (tT : Obj → Option Nat) (c : ℚ) :
    ∀ (l : List Obj) (t : Nat), ((scanRun tT c l t).2.2).length ≤ l.length := by
  intro l
  induction l with
  | nil => intro t; simp [scanRun]
  | cons a l ih =>
    intro t
    simp only [scanRun]
    split
    · split
      · split
        · exact Nat.le_succ_of_le (ih t)
        · exact Nat.le_succ_of_le (ih _)
      · exact Nat.le_succ_of_le (ih t)
    · simp

theorem scanRun_split (tT : Obj → Option Nat) (c : ℚ) :
    ∀ (l : List Obj) (t : Nat), ∃ n,
      (scanRun tT c l t).2.2 = l.drop n ∧
      List.Forall₂ (demotedP (fun o => (tT o).isSome)) (l.take n) ((scanRun tT c l t).1) ∧
      (∀ o ∈ (scanRun tT c l t).1, o.time ≤ c) ∧
      (∀ o' l'', (scanRun tT c l t).2.2 = o' :: l'' → ¬ o'.time ≤ c) := by
  intro l
  induction l with
  | nil =>
    intro t
    refine ⟨0, by simp [scanRun], by simp [scanRun], by simp [scanRun], ?_⟩
    intro o' l'' h
    simp [scanRun] at h
  | cons a l ih =>
    intro t
    by_cases hle : a.time ≤ c
    · simp only [scanRun, if_pos hle]
      split
      · rename_i t₀ hta
        split
        · -- duplicate: `a` is demoted, recursion with unchanged `types`
          obtain ⟨n, h1, h2, h3, h4⟩ := ih t
          refine ⟨n + 1, ?_, ?_, ?_, ?_⟩
          · simpa using h1
          · simp only [List.take_succ_cons]
            exact List.Forall₂.cons
              (demotedP_remove a (by simp [hta])) h2
          · intro o ho
            simp only [List.mem_cons] at ho
            rcases ho with rfl | ho
            · simpa [remove_time] using hle
            · exact h3 o ho
          · simpa using h4
        · -- first occurrence: `a` is kept, the bit is recorded
          obtain ⟨n, h1, h2, h3, h4⟩ := ih (t ||| (1 <<< t₀))
          refine ⟨n + 1, ?_, ?_, ?_, ?_⟩
          · simpa using h1
          · simp only [List.take_succ_cons]
            exact List.Forall₂.cons (demotedP_refl a) h2
          · intro o ho
            simp only [List.mem_cons] at ho
            rcases ho with rfl | ho
            · exact hle
            · exact h3 o ho
          · simpa using h4
      · -- untyped object: kept, recursion with unchanged `types`
        obtain ⟨n, h1, h2, h3, h4⟩ := ih t
        refine ⟨n + 1, ?_, ?_, ?_, ?_⟩
        · simpa using h1
        · simp only [List.take_succ_cons]
          exact List.Forall₂.cons (demotedP_refl a) h2
        · intro o ho
          simp only [List.mem_cons] at ho
          rcases ho with rfl | ho
          · exact hle
          · exact h3 o ho
        · simpa using h4
    · simp only [scanRun, if_neg hle]
      refine ⟨0, by simp, by simp, by simp, ?_⟩
      intro o' l'' h
      injection h with h1 h2
      subst h1
      exact hle

theorem cntTy_cons (tT : Obj → Option Nat) (ty : Nat) (o : Obj) (l : List Obj) :
    cntTy tT ty (o :: l) =
      (if tT o == some ty then 1 else 0) + cntTy tT ty l := by
  unfold cntTy
  rw [List.filter_cons]
  split
  · simp [Nat.add_comm]
  · simp

theorem scanRun_cnt (tT : Obj → Option Nat) (c : ℚ) (ty : Nat)
    (hrm : ∀ o, tT (remove_or_replace_note o) = none) :
    ∀ (l : List Obj) (t : Nat),
      (t.testBit ty = true →
        cntTy tT ty ((scanRun tT c l t).1) = 0 ∧
        ((scanRun tT c l t).2.1).testBit ty = true) ∧
      (t.testBit ty = false →
        cntTy tT ty ((scanRun tT c l t).1) =
          (if ((scanRun tT c l t).2.1).testBit ty = true then 1 else 0)) := by
  intro l
  induction l with
  | nil =>
    intro t
    constructor
    · intro h
      exact ⟨by simp [scanRun, cntTy], by simpa [scanRun] using h⟩
    · intro h
      simp [scanRun, cntTy, h]
  | cons a l ih =>
    intro t
    by_cases hle : a.time ≤ c
    · simp only [scanRun, if_pos hle]
      rcases hta : tT a with _ | t₀
      · -- untyped object
        simp only
        obtain ⟨ih1, ih2⟩ := ih t
        constructor
        · intro h
          obtain ⟨hc, hb⟩ := ih1 h
          refine ⟨?_, hb⟩
          rw [cntTy_cons, hta]
          simpa using hc
        · intro h
          rw [cntTy_cons, hta]
          simpa using ih2 h
      · simp only
        split
        · -- duplicate of an already seen type: demoted
          obtain ⟨ih1, ih2⟩ := ih t
          constructor
          · intro h
            obtain ⟨hc, hb⟩ := ih1 h
            refine ⟨?_, hb⟩
            rw [cntTy_cons, hrm]
            simpa using hc
          · intro h
            rw [cntTy_cons, hrm]
            simpa using ih2 h
        · -- first occurrence of type `t₀`
          rename_i hdup
          rw [and_one_shift_ne] at hdup
          have hdup' : t.testBit t₀ = false := by
            rcases hb : t.testBit t₀ with _ | _
            · rfl
            · exact absurd (by simp [hb]) hdup
          obtain ⟨ih1, ih2⟩ := ih (t ||| (1 <<< t₀))
          have hbitor : ∀ j : Nat, (t ||| (1 <<< t₀)).testBit j =
              (t.testBit j || (decide (t₀ = j))) := by
            intro j
            rw [Nat.testBit_or, Nat.one_shiftLeft]
            by_cases hj : t₀ = j
            · subst hj
              rw [Nat.testBit_two_pow_self]
              simp
            · rw [Nat.testBit_two_pow_of_ne hj]
              simp [hj]
          constructor
          · intro h
            have ht0ty : t₀ ≠ ty := by
              intro hcon
              subst hcon
              rw [h] at hdup'
              exact Bool.noConfusion hdup'
            have hbit : (t ||| (1 <<< t₀)).testBit ty = true := by
              rw [hbitor]
              simp [h]
            obtain ⟨hc, hb⟩ := ih1 hbit
            refine ⟨?_, hb⟩
            rw [cntTy_cons, hta]
            simpa [ht0ty] using hc
          · intro h
            by_cases ht0 : t₀ = ty
            · subst ht0
              have hbit : (t ||| (1 <<< t₀)).testBit t₀ = true := by
                rw [hbitor]
                simp
              obtain ⟨hc, hb⟩ := ih1 hbit
              rw [cntTy_cons, hta, hb]
              simpa using hc
            · have hbit : (t ||| (1 <<< t₀)).testBit ty = false := by
                rw [hbitor]
                simp [ht0, h]
              have hc := ih2 hbit
              rw [cntTy_cons, hta]
              simpa [ht0] using hc
    · simp only [scanRun, if_neg hle]
      constructor
      · intro h
        exact ⟨by simp [cntTy], h⟩
      · intro h
        simp [cntTy, h]

theorem scanRun_types_lt (tT : Obj → Option Nat) (c : ℚ)
    (hsmall : ∀ o t₀, tT o = some t₀ → t₀ < 6) :
    ∀ (l : List Obj) (t : Nat), t < 64 → ((scanRun tT c l t).2.1) < 64 := by
  intro l
  induction l with
  | nil => intro t ht; simpa [scanRun] using ht
  | cons a l ih =>
    intro t ht
    by_cases hle : a.time ≤ c
    · simp only [scanRun, if_pos hle]
      rcases hta : tT a with _ | t₀
      · exact ih t ht
      · simp only
        split
        · exact ih t ht
        · apply ih
          have h1 : (1 <<< t₀) < 64 := by
            rw [Nat.one_shiftLeft]
            have h6 : t₀ < 6 := hsmall a t₀ hta
            calc 2 ^ t₀ < 2 ^ 6 := Nat.pow_lt_pow_right (by norm_num) h6
            _ = 64 := by norm_num
          have h64 : (64 : Nat) = 2 ^ 6 := by norm_num
          rw [h64] at ht h1 ⊢
          exact Nat.or_lt_two_pow ht h1
    · simpa [scanRun, if_neg hle] using ht

theorem filterRun_cnt (tT : Obj → Option Nat) (ty : Nat) (ts : Nat)
    (hrm : ∀ o, tT (remove_or_replace_note o) = none) :
    ∀ run, cntTy tT ty (filterRun tT ts run) =
      if ts.testBit ty = true then cntTy tT ty run else 0 := by
  intro run
  induction run with
  | nil => simp [filterRun, cntTy]
  | cons o run ih =>
    have hmapcons : filterRun tT ts (o :: run) =
        (match tT o with
          | some t => if ts &&& (1 <<< t) == 0 then remove_or_replace_note o else o
          | none => o) :: filterRun tT ts run := by
      simp [filterRun]
    rw [hmapcons, cntTy_cons, ih]
    rcases hto : tT o with _ | t₀
    · simp only [hto]
      by_cases hts : ts.testBit ty = true <;>
        simp [hts, cntTy_cons, hto]
    · simp only [hto]
      split <;> rename_i hbit
      · rw [and_one_shift_eq] at hbit
        have hb : ts.testBit t₀ = false := by
          rcases hb : ts.testBit t₀ with _ | _
          · rfl
          · rw [hb] at hbit; exact Bool.noConfusion hbit
        rw [hrm]
        by_cases hty : t₀ = ty
        · subst hty
          simp [hb, cntTy_cons, hto]
        · by_cases hts : ts.testBit ty = true <;>
            simp [hts, cntTy_cons, hto, hty]
      · rw [and_one_shift_eq] at hbit
        have hb : ts.testBit t₀ = true := by
          rcases hb : ts.testBit t₀ with _ | _
          · rw [hb] at hbit; exact absurd rfl hbit
          · rfl
        by_cases hty : t₀ = ty
        · subst hty
          simp [hb, cntTy_cons, hto]
        · by_cases hts : ts.testBit ty = true <;>
            simp [hts, cntTy_cons, hto, hty]


theorem filterRun_demoted (tT : Obj → Option Nat) (ts : Nat) :
    ∀ run, List.Forall₂ (demotedP (fun o => (tT o).isSome)) run (filterRun tT ts run) := by
  intro run
  induction run with
  | nil => exact List.Forall₂.nil
  | cons o run ih =>
    have hmapcons : filterRun tT ts (o :: run) =
        (match tT o with
          | some t => if ts &&& (1 <<< t) == 0 then remove_or_replace_note o else o
          | none => o) :: filterRun tT ts run := by
      simp [filterRun]
    rw [hmapcons]
    refine List.Forall₂.cons ?_ ih
    rcases hto : tT o with _ | t₀
    · exact demotedP_refl o
    · simp only
      split
      · exact demotedP_remove o (by simp [hto])
      · exact demotedP_refl o

theorem scanRun_cons_len (tT : Obj → Option Nat) (c : ℚ) (o : Obj) (rest : List Obj)
    (t : Nat) (he : o.time ≤ c) :
    ((scanRun tT c (o :: rest) t).2.2).length ≤ rest.length := by
  simp only [scanRun, if_pos he]
  rcases hta : tT o with _ | t₀
  · exact scanRun_len tT c rest t
  · simp only
    split
    · exact scanRun_len tT c rest t
    · exact scanRun_len tT c rest _

theorem sanitizeFuel_congr {σ : Type} (tT : Obj → Option Nat) (m : σ → Nat → Nat × σ) :
    ∀ (f1 : Nat) (l : List Obj) (s : σ) (f2 : Nat), l.length ≤ f1 → l.length ≤ f2 →
      sanitizeFuel tT m f1 l s = sanitizeFuel tT m f2 l s := by
  intro f1
  induction f1 with
  | zero =>
    intro l s f2 h1 h2
    have hl : l = [] := List.eq_nil_of_length_eq_zero (Nat.le_zero.1 h1)
    subst hl
    cases f2 <;> rfl
  | succ f1 ih =>
    intro l s f2 h1 h2
    rcases l with _ | ⟨o, rest⟩
    · cases f2 <;> rfl
    · rcases f2 with _ | f2
      · simp at h2
      · simp only [sanitizeFuel]
        have hr : ((scanRun tT o.time (o :: rest) 0).2.2).length ≤ rest.length :=
          scanRun_cons_len tT o.time o rest 0 (le_refl o.time)
        rw [ih ((scanRun tT o.time (o :: rest) 0).2.2) _ f2
          (le_trans hr (by simpa using h1)) (le_trans hr (by simpa using h2))]

theorem sanitize_nil {σ : Type} (tT : Obj → Option Nat) (m : σ → Nat → Nat × σ) (s : σ) :
    sanitize tT m [] s = ([], s) := rfl

theorem sanitize_cons {σ : Type} (tT : Obj → Option Nat) (m : σ → Nat → Nat × σ)
    (o : Obj) (rest : List Obj) (s : σ) :
    sanitize tT m (o :: rest) s =
      ((filterRun tT ((m s ((scanRun tT o.time (o :: rest) 0).2.1)).1)
          ((scanRun tT o.time (o :: rest) 0).1)) ++
        (sanitize tT m ((scanRun tT o.time (o :: rest) 0).2.2)
          ((m s ((scanRun tT o.time (o :: rest) 0).2.1)).2)).1,
       (sanitize tT m ((scanRun tT o.time (o :: rest) 0).2.2)
          ((m s ((scanRun tT o.time (o :: rest) 0).2.1)).2)).2) := by
  show sanitizeFuel tT m (o :: rest).length (o :: rest) s = _
  simp only [List.length_cons, sanitizeFuel]
  unfold sanitize
  rw [sanitizeFuel_congr tT m rest.length ((scanRun tT o.time (o :: rest) 0).2.2) _
    (((scanRun tT o.time (o :: rest) 0).2.2).length)
    (scanRun_cons_len tT o.time o rest 0 (le_refl o.time)) (le_refl _)]

theorem forall₂_trans_gen (R : Obj → Obj → Prop)
    (htrans : ∀ a b c, R a b → R b c → R a c) :
    ∀ {l1 l2 l3 : List Obj}, List.Forall₂ R l1 l2 → List.Forall₂ R l2 l3 →
      List.Forall₂ R l1 l3 := by
  intro l1 l2 l3 h12
  induction h12 generalizing l3 with
  | nil =>
    intro h23
    cases h23
    exact List.Forall₂.nil
  | cons hab h ih =>
    intro h23
    cases h23 with
    | cons hbc h' => exact List.Forall₂.cons (htrans _ _ _ hab hbc) (ih h')

theorem forall₂_mem_right {R : Obj → Obj → Prop} :
    ∀ {l1 l2 : List Obj}, List.Forall₂ R l1 l2 → ∀ b ∈ l2, ∃ a ∈ l1, R a b := by
  intro l1 l2 h
  induction h with
  | nil => intro b hb; exact absurd hb (List.not_mem_nil b)
  | cons hab h ih =>
    intro b hb
    rcases List.mem_cons.1 hb with rfl | hb
    · exact ⟨_, List.mem_cons_self _ _, hab⟩
    · obtain ⟨a, ha, har⟩ := ih b hb
      exact ⟨a, List.mem_cons_of_mem _ ha, har⟩

theorem forall₂_refl_demoted {P : Obj → Prop} :
    ∀ l : List Obj, List.Forall₂ (demotedP P) l l := by
  intro l
  induction l with
  | nil => exact List.Forall₂.nil
  | cons a l ih => exact List.Forall₂.cons (demotedP_refl a) ih

theorem demotedP_trans {P : Obj → Prop}
    (hP : ∀ o : Obj, (o.data = .Deleted ∨ ∃ s, o.data = .BGM s) → ¬ P o)
    {a b c : Obj} (h1 : demotedP P a b) (h2 : demotedP P b c) : demotedP P a c := by
  rcases h1 with rfl | ⟨hpa, ht, hd⟩
  · exact h2
  · rcases h2 with rfl | ⟨hpb, ht2, hd2⟩
    · exact Or.inr ⟨hpa, ht, hd⟩
    · exact absurd hpb (hP b hd)

theorem cntTyAt_cons (tT : Obj → Option Nat) (ty : Nat) (c : ℚ) (o : Obj) (l : List Obj) :
    cntTyAt tT ty c (o :: l) =
      (if o.time == c && tT o == some ty then 1 else 0) + cntTyAt tT ty c l := by
  unfold cntTyAt
  rw [List.filter_cons]
  split
  · simp [Nat.add_comm]
  · simp

theorem cntTyAt_mono (tT : Obj → Option Nat) {P : Obj → Prop}
    (hnone : ∀ o : Obj, (o.data = .Deleted ∨ ∃ s, o.data = .BGM s) → tT o = none)
    {l l' : List Obj} (h : List.Forall₂ (demotedP P) l l') (ty : Nat) (c : ℚ) :
    cntTyAt tT ty c l' ≤ cntTyAt tT ty c l := by
  induction h with
  | nil => exact le_refl 0
  | cons hab h ih =>
    rename_i a b l1 l2
    rw [cntTyAt_cons, cntTyAt_cons]
    rcases hab with rfl | ⟨hpa, ht, hd⟩
    · exact Nat.add_le_add_left ih _
    · rw [hnone b hd]
      have hite : (if (b.time == c && ((none : Option Nat) == some ty)) = true
          then 1 else 0) = 0 := by simp
      rw [hite]
      omega

theorem cntTyAt_append (tT : Obj → Option Nat) (ty : Nat) (c : ℚ) (l1 l2 : List Obj) :
    cntTyAt tT ty c (l1 ++ l2) = cntTyAt tT ty c l1 + cntTyAt tT ty c l2 := by
  unfold cntTyAt
  rw [List.filter_append, List.length_append]

theorem cntTyAt_le_cntTy (tT : Obj → Option Nat) (ty : Nat) (c : ℚ) :
    ∀ l : List Obj, cntTyAt tT ty c l ≤ cntTy tT ty l := by
  intro l
  induction l with
  | nil => exact le_refl 0
  | cons o l ih =>
    rw [cntTyAt_cons, cntTy_cons]
    by_cases h1 : (tT o == some ty) = true
    · by_cases h2 : (o.time == c) = true <;> simp [h1, h2] <;> omega
    · have hb : (tT o == some ty) = false := by
        rcases hx : (tT o == some ty) with _ | _
        · rfl
        · exact absurd hx h1
      simp [hb]
      omega

theorem cntTyAt_eq_zero (tT : Obj → Option Nat) (ty : Nat) (c : ℚ)
    {l : List Obj} (h : ∀ o ∈ l, ¬ o.time = c) : cntTyAt tT ty c l = 0 := by
  unfold cntTyAt
  have : l.filter (fun o => o.time == c && tT o == some ty) = [] := by
    rw [List.filter_eq_nil]
    intro a ha
    simp only [Bool.and_eq_true, beq_iff_eq]
    intro hcon
    exact absurd hcon.1 (h a ha)
  rw [this]
  rfl

theorem sanitize_demoted {σ : Type} (tT : Obj → Option Nat) (m : σ → Nat → Nat × σ)
    (hnone : ∀ o : Obj, (o.data = .Deleted ∨ ∃ s, o.data = .BGM s) → tT o = none) :
    ∀ (N : Nat) (l : List Obj), l.length ≤ N → ∀ s : σ,
      List.Forall₂ (demotedP (fun o => (tT o).isSome)) l (sanitize tT m l s).1 := by
  have hP : ∀ o : Obj, (o.data = .Deleted ∨ ∃ s, o.data = .BGM s) →
      ¬ (tT o).isSome := by
    intro o hd
    rw [hnone o hd]
    simp
  intro N
  induction N with
  | zero =>
    intro l h s
    have hl : l = [] := List.eq_nil_of_length_eq_zero (Nat.le_zero.1 h)
    subst hl
    rw [sanitize_nil]
    exact List.Forall₂.nil
  | succ N ih =>
    intro l h s
    rcases l with _ | ⟨o, rest⟩
    · rw [sanitize_nil]
      exact List.Forall₂.nil
    · rw [sanitize_cons]
      obtain ⟨n, h1, h2, h3, h4⟩ := scanRun_split tT o.time (o :: rest) 0
      have hA : List.Forall₂ (demotedP (fun o => (tT o).isSome)) ((o :: rest).take n)
          (filterRun tT ((m s ((scanRun tT o.time (o :: rest) 0).2.1)).1)
            ((scanRun tT o.time (o :: rest) 0).1)) :=
        forall₂_trans_gen (demotedP (fun o => (tT o).isSome))
          (fun a b c hab hbc => demotedP_trans hP hab hbc) h2
          (filterRun_demoted tT _ _)
      have hlen : ((scanRun tT o.time (o :: rest) 0).2.2).length ≤ N := by
        have := scanRun_cons_len tT o.time o rest 0 (le_refl o.time)
        have h' : rest.length ≤ N := by simpa using h
        omega
      have hB := ih ((scanRun tT o.time (o :: rest) 0).2.2) hlen
        ((m s ((scanRun tT o.time (o :: rest) 0).2.1)).2)
      rw [h1] at hB
      rw [h1]
      have happ := List.rel_append hA hB
      simpa using happ

theorem sanitize_cntAt {σ : Type} (tT : Obj → Option Nat) (m : σ → Nat → Nat × σ)
    (hnone : ∀ o : Obj, (o.data = .Deleted ∨ ∃ s, o.data = .BGM s) → tT o = none) :
    ∀ (N : Nat) (l : List Obj), l.length ≤ N →
      List.Pairwise (fun a b => a.time ≤ b.time) l → ∀ (s : σ) (ty : Nat) (c : ℚ),
      cntTyAt tT ty c (sanitize tT m l s).1 ≤ 1 := by
  have hrm : ∀ o, tT (remove_or_replace_note o) = none :=
    fun o => hnone _ (remove_data o)
  intro N
  induction N with
  | zero =>
    intro l h _ s ty c
    have hl : l = [] := List.eq_nil_of_length_eq_zero (Nat.le_zero.1 h)
    subst hl
    rw [sanitize_nil]
    exact Nat.zero_le 1
  | succ N ih =>
    intro l h hsort s ty c
    rcases l with _ | ⟨o, rest⟩
    · rw [sanitize_nil]
      exact Nat.zero_le 1
    · rw [sanitize_cons, cntTyAt_append]
      set r := scanRun tT o.time (o :: rest) 0 with hrdef
      set ts := m s r.2.1 with htsdef
      obtain ⟨n, h1, h2, h3, h4⟩ := scanRun_split tT o.time (o :: rest) 0
      rw [← hrdef] at h1 h2 h3 h4
      have hhead : ∀ x ∈ (o :: rest), o.time ≤ x.time := by
        intro x hx
        rcases List.mem_cons.1 hx with rfl | hx
        · exact le_refl _
        · exact (List.pairwise_cons.1 hsort).1 x hx
      have hlen : (r.2.2).length ≤ N := by
        have := scanRun_cons_len tT o.time o rest 0 (le_refl o.time)
        rw [← hrdef] at this
        have h' : rest.length ≤ N := by simpa using h
        omega
      have hsort' : List.Pairwise (fun a b => a.time ≤ b.time) (r.2.2) := by
        rw [h1]
        exact List.Pairwise.sublist (List.drop_sublist n _) hsort
      have hrest_gt : ∀ a ∈ r.2.2, o.time < a.time := by
        intro a ha
        rcases hr : r.2.2 with _ | ⟨hd, tl⟩
        · rw [hr] at ha
          exact absurd ha (List.not_mem_nil a)
        · have hhd : ¬ hd.time ≤ o.time := h4 hd tl hr
          rw [hr] at ha
          rcases List.mem_cons.1 ha with rfl | ha
          · exact lt_of_not_le hhd
          · have hle2 : hd.time ≤ a.time := by
              rw [hr] at hsort'
              exact (List.pairwise_cons.1 hsort').1 a ha
            exact lt_of_lt_of_le (lt_of_not_le hhd) hle2
      have hrun1_time : ∀ x ∈ filterRun tT ts.1 r.1, x.time = o.time := by
        intro x hx
        obtain ⟨y, hy, hxy⟩ := forall₂_mem_right (filterRun_demoted tT ts.1 r.1) x hx
        have hyx : x.time = y.time := demotedP_time hxy
        have hyle : y.time ≤ o.time := h3 y hy
        obtain ⟨z, hz, hzy⟩ := forall₂_mem_right h2 y hy
        have hzy' : y.time = z.time := demotedP_time hzy
        have hz' : z ∈ (o :: rest) := (List.take_sublist n _).subset hz
        have hge : o.time ≤ y.time := by
          rw [hzy']
          exact hhead z hz'
        rw [hyx]
        exact le_antisymm hyle hge
      by_cases hc : c = o.time
      · have htail0 : cntTyAt tT ty c ((sanitize tT m r.2.2 ts.2).1) = 0 := by
          apply cntTyAt_eq_zero
          intro x hx hxc
          obtain ⟨a, ha, hax⟩ :=
            forall₂_mem_right (sanitize_demoted tT m hnone N r.2.2 hlen ts.2) x hx
          have hxa : x.time = a.time := demotedP_time hax
          have hgt : o.time < a.time := hrest_gt a ha
          rw [hc] at hxc
          rw [hxc] at hxa
          exact absurd hxa.symm (ne_of_gt hgt)
        have hrun1 : cntTyAt tT ty c (filterRun tT ts.1 r.1) ≤ 1 := by
          refine le_trans (cntTyAt_le_cntTy tT ty c _) ?_
          rw [filterRun_cnt tT ty ts.1 hrm r.1]
          split
          · have h0 : (0 : Nat).testBit ty = false := Nat.zero_testBit ty
            have hcnt := (scanRun_cnt tT o.time ty hrm (o :: rest) 0).2 h0
            rw [← hrdef] at hcnt
            rw [hcnt]
            split <;> norm_num
          · exact Nat.zero_le 1
        rw [htail0]
        omega
      · have hrun0 : cntTyAt tT ty c (filterRun tT ts.1 r.1) = 0 := by
          apply cntTyAt_eq_zero
          intro x hx hxc
          exact hc (hxc ▸ (hrun1_time x hx))
        rw [hrun0]
        have htail := ih r.2.2 hlen hsort' ts.2 ty c
        omega

theorem rposition_none (p : Obj → Bool) :
    ∀ l : List Obj, rposition p l = none → ∀ o ∈ l, p o = false := by
  intro l
  induction l with
  | nil => intro _ o ho; exact absurd ho (List.not_mem_nil o)
  | cons a l ih =>
    intro h o ho
    unfold rposition at h
    rcases hr : rposition p l with _ | i
    · rw [hr] at h
      simp only at h
      rcases List.mem_cons.1 ho with rfl | ho
      · rcases hp : p o with _ | _
        · rfl
        · rw [hp] at h
          simp at h
      · exact ih hr o ho
    · rw [hr] at h
      simp at h

theorem rposition_spec (p : Obj → Bool) :
    ∀ (l : List Obj) (pos : Nat), rposition p l = some pos →
      pos < l.length ∧ p (l.getD pos dObj) = true ∧
      ∀ j, pos < j → j < l.length → p (l.getD j dObj) = false := by
  intro l
  induction l with
  | nil => intro pos h; exact absurd h (by simp [rposition])
  | cons a l ih =>
    intro pos h
    unfold rposition at h
    rcases hr : rposition p l with _ | i
    · rw [hr] at h
      simp only at h
      rcases hp : p a with _ | _
      · rw [hp] at h
        simp at h
      · rw [hp] at h
        simp at h
        subst h
        refine ⟨by simp, by simpa using hp, ?_⟩
        intro j hj1 hj2
        rcases j with _ | j
        · omega
        · rw [List.getD_cons_succ]
          apply rposition_none p l hr
          have hjl : j < l.length := by simpa using hj2
          rw [List.getD_eq_getElem l dObj hjl]
          exact List.getElem_mem hjl
    · rw [hr] at h
      simp only [Option.some.injEq] at h
      subst h
      obtain ⟨hi1, hi2, hi3⟩ := ih i hr
      refine ⟨by simpa using hi1, by simpa using hi2, ?_⟩
      intro j hj1 hj2
      rcases j with _ | j
      · omega
      · rw [List.getD_cons_succ]
        exact hi3 j (by omega) (by simpa using hj2)

theorem forall₂_set_demoted (P : Obj → Prop) :
    ∀ (l : List Obj) (pos : Nat), pos < l.length → P (l.getD pos dObj) →
    List.Forall₂ (demotedP P) l (l.set pos (remove_or_replace_note (l.getD pos dObj))) := by
  intro l
  induction l with
  | nil => intro pos h; simp at h
  | cons a l ih =>
    intro pos hlt hP
    rcases pos with _ | pos
    · rw [List.getD_cons_zero] at hP ⊢
      rw [List.set_cons_zero]
      exact List.Forall₂.cons (demotedP_remove a hP) (forall₂_refl_demoted l)
    · rw [List.getD_cons_succ] at hP ⊢
      rw [List.set_cons_succ]
      exact List.Forall₂.cons (demotedP_refl a) (ih pos (by simpa using hlt) hP)

theorem fix_unfinished_demoted (lane0 : Lane) (l : List Obj) :
    List.Forall₂ (demotedP (fun o => (to_type lane0 o).isSome)) l
      (fix_unfinished lane0 l) := by
  unfold fix_unfinished
  rcases hr : rposition (fun o => (to_type lane0 o).isSome) l with _ | pos
  · exact forall₂_refl_demoted l
  · show List.Forall₂ _ l
      (if (l.getD pos dObj).is_lnstart = true
       then l.set pos (remove_or_replace_note (l.getD pos dObj)) else l)
    obtain ⟨h1, h2, h3⟩ := rposition_spec _ l pos hr
    split
    · exact forall₂_set_demoted (fun o => (to_type lane0 o).isSome) l pos h1
        (by simpa using h2)
    · exact forall₂_refl_demoted l

theorem lane_pass_demoted (lane0 : Lane) (l : List Obj) :
    List.Forall₂ (demotedP (fun o => (to_type lane0 o).isSome)) l (lane_pass lane0 l) := by
  have hnone := to_type_none_of_bgm_deleted lane0
  have hP : ∀ o : Obj, (o.data = .Deleted ∨ ∃ s, o.data = .BGM s) →
      ¬ (to_type lane0 o).isSome := by
    intro o hd
    rw [hnone o hd]
    simp
  show List.Forall₂ _ l
    (if (sanitize (to_type lane0) (fun inside types => merge_types inside types)
          l false).2 = true
     then fix_unfinished lane0
       (sanitize (to_type lane0) (fun inside types => merge_types inside types) l false).1
     else (sanitize (to_type lane0) (fun inside types => merge_types inside types) l false).1)
  split
  · exact forall₂_trans_gen (demotedP (fun o => (to_type lane0 o).isSome))
      (fun a b c hab hbc => demotedP_trans hP hab hbc)
      (sanitize_demoted (to_type lane0) _ hnone l.length l (le_refl _) false)
      (fix_unfinished_demoted lane0 _)
  · exact sanitize_demoted (to_type lane0) _ hnone l.length l (le_refl _) false

theorem pairwise_time_transport {l l' : List Obj}
    (h : List.Forall₂ (fun a b => b.time = a.time) l l') :
    List.Pairwise (fun a b : Obj => a.time ≤ b.time) l →
    List.Pairwise (fun a b : Obj => a.time ≤ b.time) l' := by
  induction h with
  | nil => intro _; exact List.Pairwise.nil
  | cons hab h ih =>
    intro hp
    obtain ⟨ha, hl⟩ := List.pairwise_cons.1 hp
    refine List.pairwise_cons.2 ⟨?_, ih hl⟩
    intro y hy
    obtain ⟨x, hx, hyx⟩ := forall₂_mem_right h y hy
    rw [hab, hyx]
    exact ha x hx

theorem demoted_time_rel {P : Obj → Prop} {l l' : List Obj}
    (h : List.Forall₂ (demotedP P) l l') :
    List.Forall₂ (fun a b => b.time = a.time) l l' :=
  List.Forall₂.imp (fun a b hab => demotedP_time hab) h

theorem foldl_lane_pass_sorted :
    ∀ (lanes : List Lane) (l : List Obj),
      List.Pairwise (fun a b : Obj => a.time ≤ b.time) l →
      List.Pairwise (fun a b : Obj => a.time ≤ b.time)
        (lanes.foldl (fun acc ln => lane_pass ln acc) l) := by
  intro lanes
  induction lanes with
  | nil => intro l h; exact h
  | cons ln lanes ih =>
    intro l h
    rw [List.foldl_cons]
    exact ih _ (pairwise_time_transport (demoted_time_rel (lane_pass_demoted ln l)) h)

theorem foldl_lane_pass_cnt_mono (L : Lane) (ty : Nat) (c : ℚ) :
    ∀ (lanes : List Lane) (l : List Obj),
      cntTyAt (to_type L) ty c (lanes.foldl (fun acc ln => lane_pass ln acc) l) ≤
        cntTyAt (to_type L) ty c l := by
  intro lanes
  induction lanes with
  | nil => intro l; exact le_refl _
  | cons ln lanes ih =>
    intro l
    rw [List.foldl_cons]
    exact le_trans (ih (lane_pass ln l))
      (cntTyAt_mono (to_type L) (to_type_none_of_bgm_deleted L)
        (lane_pass_demoted ln l) ty c)

theorem lane_pass_cnt (lane0 : Lane) (l : List Obj)
    (h : List.Pairwise (fun a b : Obj => a.time ≤ b.time) l) (ty : Nat) (c : ℚ) :
    cntTyAt (to_type lane0) ty c (lane_pass lane0 l) ≤ 1 := by
  have hcore := sanitize_cntAt (to_type lane0) (fun inside types => merge_types inside types)
    (to_type_none_of_bgm_deleted lane0) l.length l (le_refl _) h false ty c
  show cntTyAt _ ty c
    (if (sanitize (to_type lane0) (fun inside types => merge_types inside types)
          l false).2 = true
     then fix_unfinished lane0
       (sanitize (to_type lane0) (fun inside types => merge_types inside types) l false).1
     else (sanitize (to_type lane0)
       (fun inside types => merge_types inside types) l false).1) ≤ 1
  split
  · exact le_trans (cntTyAt_mono (to_type lane0) (to_type_none_of_bgm_deleted lane0)
      (fix_unfinished_demoted lane0 _) ty c) hcore
  · exact hcore

theorem mergeSort_time_sorted (objs : List Obj) :
    List.Pairwise (fun a b : Obj => a.time ≤ b.time)
      (objs.mergeSort (fun a b => decide (a.time ≤ b.time))) := by
  have h := @List.sorted_mergeSort Obj
    (fun a b : Obj => decide (a.time ≤ b.time))
    (fun a b c hab hbc => by
      simp only [decide_eq_true_eq] at hab hbc ⊢
      exact le_trans hab hbc)
    (fun a b => by
      simp only [Bool.or_eq_true, decide_eq_true_eq]
      exact le_total a.time b.time)
    objs
  exact h.imp (fun hab => by simpa using hab)

/-- Claim C1: after `sanitize_bms`, the object list is sorted ascending by time, and for
every lane and per-lane semantic type (`Visible`, `Invisible`, `LNStart`, `LNDone`,
`Bomb`, as the bit indices of `to_type`) at most one retained object of that type occupies
any given instant in that lane. -/
theorem sanitize_bms_sorted_dedup (objs : List Obj) :
    List.Pairwise (fun a b : Obj => a.time ≤ b.time) (sanitize_bms objs) ∧
    (∀ lane : Lane, lane < NLANES → ∀ (ty : Nat) (c : ℚ),
      cntTyAt (to_type lane) ty c (sanitize_bms objs) ≤ 1) := by
  have hbms : sanitize_bms objs =
      (sanitize to_type_eff (fun s types => (types, s))
        ((List.range NLANES).foldl (fun acc lane => lane_pass lane acc)
          (objs.mergeSort (fun a b => decide (a.time ≤ b.time)))) ()).1 := rfl
  have hsort₀ := mergeSort_time_sorted objs
  have hsort₁ := foldl_lane_pass_sorted (List.range NLANES) _ hsort₀
  have hEffDem := sanitize_demoted to_type_eff (fun s types => (types, s))
    (fun o hd => to_type_eff_none_of_bgm_deleted o hd)
    ((List.range NLANES).foldl (fun acc lane => lane_pass lane acc)
      (objs.mergeSort (fun a b => decide (a.time ≤ b.time)))).length _ (le_refl _) ()
  constructor
  · rw [hbms]
    exact pairwise_time_transport (demoted_time_rel hEffDem) hsort₁
  · intro lane hlane ty c
    have hmem : lane ∈ List.range NLANES := List.mem_range.2 hlane
    obtain ⟨s1, t1, hdecomp⟩ := List.append_of_mem hmem
    have hfold : (List.range NLANES).foldl (fun acc ln => lane_pass ln acc)
        (objs.mergeSort (fun a b => decide (a.time ≤ b.time))) =
        t1.foldl (fun acc ln => lane_pass ln acc)
          (lane_pass lane (s1.foldl (fun acc ln => lane_pass ln acc)
            (objs.mergeSort (fun a b => decide (a.time ≤ b.time))))) := by
      rw [hdecomp, List.foldl_append, List.foldl_cons]
    have hsmid := foldl_lane_pass_sorted s1 _ hsort₀
    have hcore := lane_pass_cnt lane _ hsmid ty c
    have hmono1 := foldl_lane_pass_cnt_mono lane ty c t1
      (lane_pass lane (s1.foldl (fun acc ln => lane_pass ln acc)
        (objs.mergeSort (fun a b => decide (a.time ≤ b.time)))))
    have hEffDem2 := hEffDem
    rw [hfold] at hEffDem2
    have hmono2 := cntTyAt_mono (to_type lane) (to_type_none_of_bgm_deleted lane)
      hEffDem2 ty c
    rw [hbms, hfold]
    exact le_trans hmono2 (le_trans hmono1 hcore)

theorem sanitize_bms_sorted_dedup_witness :
    (0 : Lane) < NLANES ∧
    cntTyAt (to_type 0) VISIBLE 0
      (sanitize_bms [⟨0, .Visible 0 (some 1)⟩, ⟨0, .Visible 0 (some 2)⟩]) ≤ 1 :=
  ⟨by norm_num [NLANES],
   (sanitize_bms_sorted_dedup [⟨0, .Visible 0 (some 1)⟩, ⟨0, .Visible 0 (some 2)⟩]).2
     0 (by norm_num [NLANES]) VISIBLE 0⟩

--==================================================================================================
-- Sanitizer LN alternation (C2): per-run bit facts and chain lemmas

theorem merge_types_facts : ∀ types : Nat, types < 64 → ∀ inside : Bool,
    ((merge_types inside types).1 < 64) ∧
    (¬((merge_types inside types).1.testBit LNSTART = true ∧
       (merge_types inside types).1.testBit LNDONE = true)) ∧
    ((merge_types inside types).1.testBit LNSTART = true →
       inside = false ∧ (merge_types inside types).2 = true) ∧
    ((merge_types inside types).1.testBit LNDONE = true →
       inside = true ∧ (merge_types inside types).2 = false) ∧
    ((merge_types inside types).1.testBit LNSTART = false →
     (merge_types inside types).1.testBit LNDONE = false →
       (merge_types inside types).2 = inside) := by decide

theorem merge_types_subset : ∀ types : Nat, types < 64 → ∀ inside : Bool, ∀ ty : Nat,
    ty < 6 → (merge_types inside types).1.testBit ty = true →
    types.testBit ty = true := by decide

theorem to_type_disjoint (L L' : Lane) (o : Obj)
    (h : to_type L o ≠ none) (h' : to_type L' o ≠ none) : L = L' := by
  rcases o with ⟨t, d⟩
  cases d with
  | Visible lane s =>
    simp only [to_type] at h h'
    by_cases hL : lane = L
    · by_cases hL' : lane = L'
      · rw [← hL, ← hL']
      · rw [if_neg hL'] at h'
        exact absurd rfl h'
    · rw [if_neg hL] at h
      exact absurd rfl h
  | Invisible lane s =>
    simp only [to_type] at h h'
    by_cases hL : lane = L
    · by_cases hL' : lane = L'
      · rw [← hL, ← hL']
      · rw [if_neg hL'] at h'
        exact absurd rfl h'
    · rw [if_neg hL] at h
      exact absurd rfl h
  | LNStart lane s =>
    simp only [to_type] at h h'
    by_cases hL : lane = L
    · by_cases hL' : lane = L'
      · rw [← hL, ← hL']
      · rw [if_neg hL'] at h'
        exact absurd rfl h'
    · rw [if_neg hL] at h
      exact absurd rfl h
  | LNDone lane s =>
    simp only [to_type] at h h'
    by_cases hL : lane = L
    · by_cases hL' : lane = L'
      · rw [← hL, ← hL']
      · rw [if_neg hL'] at h'
        exact absurd rfl h'
    · rw [if_neg hL] at h
      exact absurd rfl h
  | Bomb lane s dmg =>
    simp only [to_type] at h h'
    by_cases hL : lane = L
    · by_cases hL' : lane = L'
      · rw [← hL, ← hL']
      · rw [if_neg hL'] at h'
        exact absurd rfl h'
    · rw [if_neg hL] at h
      exact absurd rfl h
  | Deleted => simp only [to_type] at h; exact absurd rfl h
  | BGM s => simp only [to_type] at h; exact absurd rfl h
  | SetBGA ly i => simp only [to_type] at h; exact absurd rfl h
  | SetBPM b => simp only [to_type] at h; exact absurd rfl h
  | Stop d => simp only [to_type] at h; exact absurd rfl h

theorem to_type_eff_none_of_lane (L : Lane) (o : Obj) (h : to_type L o ≠ none) :
    to_type_eff o = none := by
  rcases o with ⟨t, d⟩
  cases d with
  | Visible lane s => rfl
  | Invisible lane s => rfl
  | LNStart lane s => rfl
  | LNDone lane s => rfl
  | Bomb lane s dmg => rfl
  | Deleted => simp only [to_type] at h; exact absurd rfl h
  | BGM s => simp only [to_type] at h; exact absurd rfl h
  | SetBGA ly i =>
    cases ly <;> (simp only [to_type] at h; exact absurd rfl h)
  | SetBPM b => simp only [to_type] at h; exact absurd rfl h
  | Stop d => simp only [to_type] at h; exact absurd rfl h

theorem is_lnstart_of_to_type (L : Lane) (o : Obj) (h : to_type L o = some LNSTART) :
    o.data.is_lnstart = true := by
  rcases o with ⟨t, d⟩
  cases d with
  | LNStart lane s => rfl
  | Visible lane s =>
    simp only [to_type] at h
    split at h
    · exact absurd (Option.some.inj h) (by decide)
    · exact Option.noConfusion h
  | Invisible lane s =>
    simp only [to_type] at h
    split at h
    · exact absurd (Option.some.inj h) (by decide)
    · exact Option.noConfusion h
  | LNDone lane s =>
    simp only [to_type] at h
    split at h
    · exact absurd (Option.some.inj h) (by decide)
    · exact Option.noConfusion h
  | Bomb lane s dmg =>
    simp only [to_type] at h
    split at h
    · exact absurd (Option.some.inj h) (by decide)
    · exact Option.noConfusion h
  | Deleted => exact Option.noConfusion h
  | BGM s => exact Option.noConfusion h
  | SetBGA ly i => exact Option.noConfusion h
  | SetBPM b => exact Option.noConfusion h
  | Stop dd => exact Option.noConfusion h

theorem is_lndone_of_to_type (L : Lane) (o : Obj) (h : to_type L o = some LNDONE) :
    o.data.is_lndone = true := by
  rcases o with ⟨t, d⟩
  cases d with
  | LNDone lane s => rfl
  | Visible lane s =>
    simp only [to_type] at h
    split at h
    · exact absurd (Option.some.inj h) (by decide)
    · exact Option.noConfusion h
  | Invisible lane s =>
    simp only [to_type] at h
    split at h
    · exact absurd (Option.some.inj h) (by decide)
    · exact Option.noConfusion h
  | LNStart lane s =>
    simp only [to_type] at h
    split at h
    · exact absurd (Option.some.inj h) (by decide)
    · exact Option.noConfusion h
  | Bomb lane s dmg =>
    simp only [to_type] at h
    split at h
    · exact absurd (Option.some.inj h) (by decide)
    · exact Option.noConfusion h
  | Deleted => exact Option.noConfusion h
  | BGM s => exact Option.noConfusion h
  | SetBGA ly i => exact Option.noConfusion h
  | SetBPM b => exact Option.noConfusion h
  | Stop dd => exact Option.noConfusion h

theorem to_type_of_lnstart (L : Lane) (o : Obj) (hs : o.data.is_lnstart = true)
    (h : to_type L o ≠ none) : to_type L o = some LNSTART := by
  rcases o with ⟨t, d⟩
  cases d with
  | LNStart lane s =>
    simp only [to_type] at h ⊢
    by_cases hL : lane = L
    · rw [if_pos hL]
    · rw [if_neg hL] at h
      exact absurd rfl h
  | Visible lane s => exact Bool.noConfusion hs
  | Invisible lane s => exact Bool.noConfusion hs
  | LNDone lane s => exact Bool.noConfusion hs
  | Bomb lane s dmg => exact Bool.noConfusion hs
  | Deleted => exact Bool.noConfusion hs
  | BGM s => exact Bool.noConfusion hs
  | SetBGA ly i => exact Bool.noConfusion hs
  | SetBPM b => exact Bool.noConfusion hs
  | Stop dd => exact Bool.noConfusion hs

theorem lnPred_false (L : Lane) (o : Obj) (h : to_type L o = none) :
    (to_type L o == some LNSTART || to_type L o == some LNDONE) = false := by
  simp [h]

theorem lnOf_cons (L : Lane) (o : Obj) (l : List Obj) :
    lnOf L (o :: l) =
      if (to_type L o == some LNSTART || to_type L o == some LNDONE) = true
      then o :: lnOf L l else lnOf L l := by
  simp [lnOf, List.filter_cons]

theorem lnOf_append (L : Lane) (l1 l2 : List Obj) :
    lnOf L (l1 ++ l2) = lnOf L l1 ++ lnOf L l2 := by
  simp [lnOf, List.filter_append]

theorem lnOf_mem (L : Lane) {b : Obj} {l : List Obj} (h : b ∈ lnOf L l) :
    b ∈ l ∧ (to_type L b = some LNSTART ∨ to_type L b = some LNDONE) := by
  have h' := List.mem_filter.1 h
  refine ⟨h'.1, ?_⟩
  have h2 := h'.2
  simp only [Bool.or_eq_true, beq_iff_eq] at h2
  exact h2

theorem lnOf_length (L : Lane) :
    ∀ l : List Obj, (lnOf L l).length =
      cntTy (to_type L) LNSTART l + cntTy (to_type L) LNDONE l := by
  intro l
  induction l with
  | nil => rfl
  | cons a l ih =>
    rw [lnOf_cons, cntTy_cons, cntTy_cons]
    by_cases hS : to_type L a = some LNSTART
    · have h1 : (to_type L a == some LNSTART) = true := by simp [hS]
      have h2 : (to_type L a == some LNDONE) = false := by
        simp [hS, LNSTART, LNDONE]
      simp [h1, h2, ih]
      omega
    · by_cases hD : to_type L a = some LNDONE
      · have h1 : (to_type L a == some LNSTART) = false := by
          simp [hD, LNSTART, LNDONE]
        have h2 : (to_type L a == some LNDONE) = true := by simp [hD]
        simp [h1, h2, ih]
        omega
      · have h1 : (to_type L a == some LNSTART) = false := by simp [hS]
        have h2 : (to_type L a == some LNDONE) = false := by simp [hD]
        simp [h1, h2, ih]

theorem cntTy_pos_of_mem (tT : Obj → Option Nat) (ty : Nat) {o : Obj} {l : List Obj}
    (ho : o ∈ l) (hty : tT o = some ty) : 1 ≤ cntTy tT ty l := by
  have hm : o ∈ l.filter (fun x => tT x == some ty) :=
    List.mem_filter.2 ⟨ho, by simp [hty]⟩
  have h := List.length_pos.2 (List.ne_nil_of_mem hm)
  simpa [cntTy] using h

theorem chainFrom_false_cons (o : Obj) (t : List Obj) :
    chainFrom false (o :: t) = (o.data.is_lnstart && chainFrom true t) := rfl

theorem chainFrom_true_cons (o : Obj) (t : List Obj) :
    chainFrom true (o :: t) = (o.data.is_lndone && chainFrom false t) := rfl

theorem chainState_cons (i : Bool) (x : Obj) (l : List Obj) :
    chainState i (x :: l) = chainState (!i) l := by
  simp only [chainState, List.length_cons]
  by_cases h : l.length % 2 = 0
  · rw [if_pos h, if_neg (by omega)]
  · rw [if_neg h, if_pos (by omega), Bool.not_not]

theorem chainFrom_dropLast :
    ∀ (l : List Obj) (i : Bool), chainFrom i l = true → chainFrom i l.dropLast = true := by
  intro l
  induction l with
  | nil => intro i _; cases i <;> rfl
  | cons a l ih =>
    intro i h
    rcases l with _ | ⟨b, l'⟩
    · cases i <;> rfl
    · rw [List.dropLast_cons₂]
      cases i
      · simp only [chainFrom_false_cons, Bool.and_eq_true] at h ⊢
        exact ⟨h.1, ih true h.2⟩
      · simp only [chainFrom_true_cons, Bool.and_eq_true] at h ⊢
        exact ⟨h.1, ih false h.2⟩

theorem rposition_cons (p : Obj → Bool) (o : Obj) (l : List Obj) :
    rposition p (o :: l) = match rposition p l with
      | some i => some (i + 1)
      | none => if p o then some 0 else none := rfl

theorem run_cnt_exact (L : Lane) (c : ℚ) (l : List Obj) (s : Bool) (ty : Nat)
    (hty : ty < 6) :
    cntTy (to_type L) ty
      (filterRun (to_type L) ((merge_types s ((scanRun (to_type L) c l 0).2.1)).1)
        ((scanRun (to_type L) c l 0).1)) =
      if ((merge_types s ((scanRun (to_type L) c l 0).2.1)).1).testBit ty = true
      then 1 else 0 := by
  have hrm : ∀ o, to_type L (remove_or_replace_note o) = none :=
    fun o => to_type_none_of_bgm_deleted L _ (remove_data o)
  have hr2lt : (scanRun (to_type L) c l 0).2.1 < 64 :=
    scanRun_types_lt (to_type L) c (fun o t₀ hh => to_type_small L o t₀ hh) l 0
      (by norm_num)
  have hsub := merge_types_subset ((scanRun (to_type L) c l 0).2.1) hr2lt s ty hty
  rw [filterRun_cnt (to_type L) ty _ hrm]
  by_cases hb : ((merge_types s ((scanRun (to_type L) c l 0).2.1)).1).testBit ty = true
  · rw [if_pos hb, if_pos hb]
    have hbit := hsub hb
    have hcnt := (scanRun_cnt (to_type L) c ty hrm l 0).2 (Nat.zero_testBit ty)
    rw [hcnt, if_pos hbit]
  · rw [if_neg hb, if_neg hb]

theorem filter_set_dropLast (q : Obj → Bool) :
    ∀ (l : List Obj) (pos : Nat) (x : Obj), pos < l.length →
      q (l.getD pos dObj) = true →
      (∀ j, pos < j → j < l.length → q (l.getD j dObj) = false) →
      q x = false →
      (l.set pos x).filter q = (l.filter q).dropLast := by
  intro l
  induction l with
  | nil => intro pos x h; simp at h
  | cons a l ih =>
    intro pos x hlt hq hafter hx
    rcases pos with _ | pos
    · rw [List.getD_cons_zero] at hq
      rw [List.set_cons_zero]
      have htail : l.filter q = [] := by
        rw [List.filter_eq_nil_iff]
        intro o ho
        obtain ⟨j, hj, hjo⟩ := List.getElem_of_mem ho
        have hjf := hafter (j + 1) (Nat.succ_pos j)
          (by simp only [List.length_cons]; omega)
        rw [List.getD_cons_succ, List.getD_eq_getElem l dObj hj, hjo] at hjf
        simp [hjf]
      rw [List.filter_cons, List.filter_cons, if_neg (by simp [hx]),
        if_pos (by simp [hq]), htail]
      rfl
    · rw [List.getD_cons_succ] at hq
      rw [List.set_cons_succ]
      have hlt' : pos < l.length := by simpa using hlt
      have hafter' : ∀ j, pos < j → j < l.length → q (l.getD j dObj) = false := by
        intro j hj1 hj2
        have hjf := hafter (j + 1) (by omega) (by simp only [List.length_cons]; omega)
        rwa [List.getD_cons_succ] at hjf
      have hne : l.filter q ≠ [] := by
        have hmem : l.getD pos dObj ∈ l := by
          rw [List.getD_eq_getElem l dObj hlt']
          exact List.getElem_mem hlt'
        exact List.ne_nil_of_mem (List.mem_filter.2 ⟨hmem, hq⟩)
      rw [List.filter_cons, List.filter_cons]
      by_cases hqa : q a = true
      · rw [if_pos (by simp [hqa]), if_pos (by simp [hqa])]
        obtain ⟨c, cs, hcs⟩ := List.exists_cons_of_ne_nil hne
        rw [ih pos x hlt' hq hafter' hx, hcs, List.dropLast_cons₂]
      · rw [if_neg hqa, if_neg hqa]
        exact ih pos x hlt' hq hafter' hx

theorem sanitize_chain (L : Lane) :
    ∀ (N : Nat) (l : List Obj), l.length ≤ N → ∀ s : Bool,
      chainFrom s (lnOf L
        (sanitize (to_type L) (fun inside types => merge_types inside types) l s).1) =
        true ∧
      (sanitize (to_type L) (fun inside types => merge_types inside types) l s).2 =
        chainState s (lnOf L
          (sanitize (to_type L) (fun inside types => merge_types inside types) l s).1) := by
  intro N
  induction N with
  | zero =>
    intro l h s
    have hl : l = [] := List.eq_nil_of_length_eq_zero (Nat.le_zero.1 h)
    subst hl
    rw [sanitize_nil]
    cases s <;> exact ⟨rfl, rfl⟩
  | succ N ih =>
    intro l h s
    rcases l with _ | ⟨o, rest⟩
    · rw [sanitize_nil]
      cases s <;> exact ⟨rfl, rfl⟩
    · rw [sanitize_cons]
      simp only []
      set r := scanRun (to_type L) o.time (o :: rest) 0 with hrdef
      set ts := merge_types s r.2.1 with htsdef
      have hlen : (r.2.2).length ≤ N := by
        have hcl := scanRun_cons_len (to_type L) o.time o rest 0 (le_refl o.time)
        rw [← hrdef] at hcl
        have h' : rest.length ≤ N := by simpa using h
        omega
      obtain ⟨ihc, ihs⟩ := ih r.2.2 hlen ts.2
      have hr2lt : r.2.1 < 64 := by
        have hsl := scanRun_types_lt (to_type L) o.time
          (fun o t₀ hh => to_type_small L o t₀ hh) (o :: rest) 0 (by norm_num)
        rw [← hrdef] at hsl
        exact hsl
      obtain ⟨h64, hnb, hSf, hDf, hkeep⟩ := merge_types_facts r.2.1 hr2lt s
      rw [← htsdef] at hnb hSf hDf hkeep
      have hcS := run_cnt_exact L o.time (o :: rest) s LNSTART (by norm_num [LNSTART])
      have hcD := run_cnt_exact L o.time (o :: rest) s LNDONE (by norm_num [LNDONE])
      rw [← hrdef, ← htsdef] at hcS hcD
      have hlnlen : (lnOf L (filterRun (to_type L) ts.1 r.1)).length =
          (if ts.1.testBit LNSTART = true then 1 else 0) +
          (if ts.1.testBit LNDONE = true then 1 else 0) := by
        rw [lnOf_length, hcS, hcD]
      rw [lnOf_append]
      by_cases hS : ts.1.testBit LNSTART = true
      · by_cases hD : ts.1.testBit LNDONE = true
        · exact absurd ⟨hS, hD⟩ hnb
        · obtain ⟨hs0, hts2⟩ := hSf hS
          have hlen1 : (lnOf L (filterRun (to_type L) ts.1 r.1)).length = 1 := by
            rw [hlnlen, if_pos hS, if_neg hD]
          obtain ⟨e, he⟩ := List.length_eq_one.1 hlen1
          have hem : e ∈ lnOf L (filterRun (to_type L) ts.1 r.1) := by
            rw [he]
            exact List.mem_cons_self _ _
          obtain ⟨hel, hty⟩ := lnOf_mem L hem
          have heS : to_type L e = some LNSTART := by
            rcases hty with h' | h'
            · exact h'
            · exfalso
              have h1 := cntTy_pos_of_mem (to_type L) LNDONE hel h'
              rw [hcD, if_neg hD] at h1
              exact absurd h1 (by norm_num)
          have hestart : e.data.is_lnstart = true := is_lnstart_of_to_type L e heS
          rw [he, List.singleton_append, hs0]
          rw [hts2] at ihc ihs ⊢
          constructor
          · rw [chainFrom_false_cons]
            simp [hestart, ihc]
          · rw [chainState_cons]
            simpa using ihs
      · by_cases hD : ts.1.testBit LNDONE = true
        · obtain ⟨hs1, hts2⟩ := hDf hD
          have hlen1 : (lnOf L (filterRun (to_type L) ts.1 r.1)).length = 1 := by
            rw [hlnlen, if_neg hS, if_pos hD]
          obtain ⟨e, he⟩ := List.length_eq_one.1 hlen1
          have hem : e ∈ lnOf L (filterRun (to_type L) ts.1 r.1) := by
            rw [he]
            exact List.mem_cons_self _ _
          obtain ⟨hel, hty⟩ := lnOf_mem L hem
          have heD : to_type L e = some LNDONE := by
            rcases hty with h' | h'
            · exfalso
              have h1 := cntTy_pos_of_mem (to_type L) LNSTART hel h'
              rw [hcS, if_neg hS] at h1
              exact absurd h1 (by norm_num)
            · exact h'
          have hedone : e.data.is_lndone = true := is_lndone_of_to_type L e heD
          rw [he, List.singleton_append, hs1]
          rw [hts2] at ihc ihs ⊢
          constructor
          · rw [chainFrom_true_cons]
            simp [hedone, ihc]
          · rw [chainState_cons]
            simpa using ihs
        · have hS' : ts.1.testBit LNSTART = false := by simpa using hS
          have hD' : ts.1.testBit LNDONE = false := by simpa using hD
          have hlen0 : (lnOf L (filterRun (to_type L) ts.1 r.1)).length = 0 := by
            rw [hlnlen, if_neg hS, if_neg hD]
          have hnil : lnOf L (filterRun (to_type L) ts.1 r.1) = [] :=
            List.eq_nil_of_length_eq_zero hlen0
          rw [hnil, List.nil_append]
          rw [hkeep hS' hD'] at ihc ihs ⊢
          exact ⟨ihc, ihs⟩

theorem lane_pass_chain (L : Lane) (l : List Obj) :
    chainFrom false (lnOf L (lane_pass L l)) = true ∧
    ((lnOf L (lane_pass L l)).length % 2 = 1 →
      ∃ pos, rposition (fun o => (to_type L o).isSome) (lane_pass L l) = some pos ∧
        ((lane_pass L l).getD pos dObj).data.is_lnstart = false) := by
  obtain ⟨hchain, hstate⟩ := sanitize_chain L l.length l (le_refl _) false
  have hlp : lane_pass L l =
      if (sanitize (to_type L) (fun inside types => merge_types inside types) l false).2 =
          true
      then fix_unfinished L
        (sanitize (to_type L) (fun inside types => merge_types inside types) l false).1
      else
        (sanitize (to_type L) (fun inside types => merge_types inside types) l false).1 :=
    rfl
  rw [hlp]
  set r1 := (sanitize (to_type L) (fun inside types => merge_types inside types) l false).1
    with hr1
  set snd := (sanitize (to_type L) (fun inside types => merge_types inside types) l false).2
    with hsnddef
  by_cases hs : snd = true
  · rw [if_pos hs]
    rw [hs] at hstate
    have hodd : (lnOf L r1).length % 2 = 1 := by
      by_contra hne
      have h0 : (lnOf L r1).length % 2 = 0 := by omega
      rw [chainState, if_pos h0] at hstate
      exact Bool.noConfusion hstate
    rcases hrp : rposition (fun o => (to_type L o).isSome) r1 with _ | pos
    · exfalso
      rcases hln : lnOf L r1 with _ | ⟨e, t⟩
      · rw [hln] at hodd
        simp at hodd
      · have hem : e ∈ lnOf L r1 := by
          rw [hln]
          exact List.mem_cons_self _ _
        obtain ⟨hel, hty⟩ := lnOf_mem L hem
        have hpe := rposition_none _ r1 hrp e hel
        rcases hty with h' | h' <;> simp [h'] at hpe
    · obtain ⟨hp1, hp2, hp3⟩ := rposition_spec _ r1 pos hrp
      have hfixeq : fix_unfinished L r1 =
          if (r1.getD pos dObj).is_lnstart = true then
            r1.set pos (remove_or_replace_note (r1.getD pos dObj))
          else r1 := by
        unfold fix_unfinished
        rw [hrp]
      by_cases hstart : (r1.getD pos dObj).is_lnstart = true
      · rw [hfixeq, if_pos hstart]
        have hisS : to_type L (r1.getD pos dObj) ≠ none := by
          intro hn
          rw [hn] at hp2
          exact Bool.noConfusion hp2
        have hLS : to_type L (r1.getD pos dObj) = some LNSTART :=
          to_type_of_lnstart L _ hstart hisS
        have hafter : ∀ j, pos < j → j < r1.length →
            (to_type L (r1.getD j dObj) == some LNSTART ||
             to_type L (r1.getD j dObj) == some LNDONE) = false := by
          intro j hj1 hj2
          have hj := hp3 j hj1 hj2
          have hnone : to_type L (r1.getD j dObj) = none := by
            rcases hv : to_type L (r1.getD j dObj) with _ | v
            · rfl
            · rw [hv] at hj
              exact Bool.noConfusion hj
          exact lnPred_false L _ hnone
        have hqpos : (to_type L (r1.getD pos dObj) == some LNSTART ||
            to_type L (r1.getD pos dObj) == some LNDONE) = true := by
          rw [hLS]
          rfl
        have hqx : (to_type L (remove_or_replace_note (r1.getD pos dObj)) == some LNSTART ||
            to_type L (remove_or_replace_note (r1.getD pos dObj)) == some LNDONE) =
            false :=
          lnPred_false L _ (to_type_remove L _)
        have hset : lnOf L (r1.set pos (remove_or_replace_note (r1.getD pos dObj))) =
            (lnOf L r1).dropLast :=
          filter_set_dropLast _ r1 pos _ hp1 hqpos hafter hqx
        constructor
        · rw [hset]
          exact chainFrom_dropLast _ false hchain
        · intro hodd2
          exfalso
          rw [hset, List.length_dropLast] at hodd2
          omega
      · rw [hfixeq, if_neg hstart]
        refine ⟨hchain, ?_⟩
        intro _
        refine ⟨pos, hrp, ?_⟩
        rcases hb : (r1.getD pos dObj).data.is_lnstart with _ | _
        · rfl
        · exact absurd hb hstart
  · rw [if_neg hs]
    refine ⟨hchain, ?_⟩
    intro hodd
    exfalso
    have hs0 : snd = false := by simpa using hs
    rw [hs0] at hstate
    rw [chainState, if_neg (by omega)] at hstate
    exact Bool.noConfusion hstate

theorem fixedL_refl (L : Lane) (a : Obj) : fixedL L a a := ⟨fun _ => rfl, fun h => h⟩

theorem fixedL_trans (L : Lane) (a b c : Obj) (h1 : fixedL L a b) (h2 : fixedL L b c) :
    fixedL L a c := by
  constructor
  · intro ha
    have hba : b = a := h1.1 ha
    have hcb : c = b := h2.1 (by rw [hba]; exact ha)
    rw [hcb, hba]
  · intro ha
    exact h2.2 (h1.2 ha)

theorem demotedP_fixedL (L L' : Lane) (hne : L' ≠ L) (a b : Obj)
    (hd : demotedP (fun o => (to_type L' o).isSome) a b) : fixedL L a b := by
  rcases hd with rfl | ⟨hPa, ht, hdata⟩
  · exact fixedL_refl L _
  · constructor
    · intro ha
      exfalso
      have h' : to_type L' a ≠ none := by
        intro hn
        rw [hn] at hPa
        exact Bool.noConfusion hPa
      exact hne (to_type_disjoint L' L a h' ha)
    · intro _
      exact to_type_none_of_bgm_deleted L b hdata

theorem demotedP_eff_fixedL (L : Lane) (a b : Obj)
    (hd : demotedP (fun o => (to_type_eff o).isSome) a b) : fixedL L a b := by
  rcases hd with rfl | ⟨hPa, ht, hdata⟩
  · exact fixedL_refl L _
  · constructor
    · intro ha
      exfalso
      have heff : to_type_eff a = none := to_type_eff_none_of_lane L a ha
      rw [heff] at hPa
      exact Bool.noConfusion hPa
    · intro _
      exact to_type_none_of_bgm_deleted L b hdata

theorem forall₂_refl_fixedL (L : Lane) : ∀ l : List Obj, List.Forall₂ (fixedL L) l l := by
  intro l
  induction l with
  | nil => exact List.Forall₂.nil
  | cons a l ih => exact List.Forall₂.cons (fixedL_refl L a) ih

theorem foldl_lane_pass_fixedL (L : Lane) :
    ∀ (lanes : List Lane), L ∉ lanes → ∀ l : List Obj,
      List.Forall₂ (fixedL L) l (lanes.foldl (fun acc ln => lane_pass ln acc) l) := by
  intro lanes
  induction lanes with
  | nil => intro _ l; exact forall₂_refl_fixedL L l
  | cons ln lanes ih =>
    intro hmem l
    rw [List.foldl_cons]
    have hne : ln ≠ L := by
      intro hcon
      apply hmem
      rw [← hcon]
      exact List.mem_cons_self _ _
    have hstep : List.Forall₂ (fixedL L) l (lane_pass ln l) :=
      (lane_pass_demoted ln l).imp (fun a b hab => demotedP_fixedL L ln hne a b hab)
    have hrest := ih (fun hc => hmem (List.mem_cons_of_mem _ hc)) (lane_pass ln l)
    exact forall₂_trans_gen (fixedL L) (fun a b c h1 h2 => fixedL_trans L a b c h1 h2)
      hstep hrest

theorem fixedL_transport (L : Lane) :
    ∀ {l l' : List Obj}, List.Forall₂ (fixedL L) l l' →
      lnOf L l' = lnOf L l ∧
      rposition (fun o => (to_type L o).isSome) l' =
        rposition (fun o => (to_type L o).isSome) l ∧
      ∀ pos, rposition (fun o => (to_type L o).isSome) l = some pos →
        l'.getD pos dObj = l.getD pos dObj := by
  intro l l' h
  induction h with
  | nil =>
    refine ⟨rfl, rfl, ?_⟩
    intro pos hpos
    simp [rposition] at hpos
  | cons hab h ih =>
    rename_i a b l₁ l₂
    obtain ⟨ih1, ih2, ih3⟩ := ih
    by_cases hta : to_type L a = none
    · have htb : to_type L b = none := hab.2 hta
      have hpa : ((to_type L a).isSome) = false := by rw [hta]; rfl
      have hpb : ((to_type L b).isSome) = false := by rw [htb]; rfl
      refine ⟨?_, ?_, ?_⟩
      · rw [lnOf_cons, lnOf_cons,
          if_neg (fun hcon => by rw [lnPred_false L b htb] at hcon; exact Bool.noConfusion hcon),
          if_neg (fun hcon => by rw [lnPred_false L a hta] at hcon; exact Bool.noConfusion hcon)]
        exact ih1
      · rw [rposition_cons, rposition_cons, ih2]
        rcases hr : rposition (fun o => (to_type L o).isSome) l₁ with _ | i
        · simp [hpa, hpb]
        · rfl
      · intro pos hpos
        rw [rposition_cons] at hpos
        rcases hr : rposition (fun o => (to_type L o).isSome) l₁ with _ | i
        · rw [hr] at hpos
          simp [hpa] at hpos
        · rw [hr] at hpos
          simp only [Option.some.injEq] at hpos
          rw [← hpos, List.getD_cons_succ, List.getD_cons_succ]
          exact ih3 i hr
    · have hba : b = a := hab.1 hta
      subst hba
      refine ⟨?_, ?_, ?_⟩
      · rw [lnOf_cons, lnOf_cons, ih1]
      · rw [rposition_cons, rposition_cons, ih2]
      · intro pos hpos
        rw [rposition_cons] at hpos
        rcases hr : rposition (fun o => (to_type L o).isSome) l₁ with _ | i
        · rw [hr] at hpos
          by_cases hp : ((to_type L b).isSome) = true
          · rw [if_pos hp] at hpos
            simp only [Option.some.injEq] at hpos
            rw [← hpos, List.getD_cons_zero, List.getD_cons_zero]
          · rw [if_neg hp] at hpos
            exact Option.noConfusion hpos
        · rw [hr] at hpos
          simp only [Option.some.injEq] at hpos
          rw [← hpos, List.getD_cons_succ, List.getD_cons_succ]
          exact ih3 i hr

/-- Claim C2 (corrected): after `sanitize_bms`, the retained LN events of every lane
alternate properly in list order starting closed (`LNStart`, `LNDone`, `LNStart`, ...), so
every retained `LNDone` pairs with exactly one earlier-or-equal retained `LNStart` and at
most one LN is open at the end; the events are ordered by time.  However a lane CAN be
left in an open state at the end of the object list: the unterminated-`LNStart` fix only
fires when the very last lane-typed object of the whole list is the `LNStart` itself (if
the LN event count is odd, the last lane-typed object is provably not an `LNStart`, which
is exactly the situation where the sanitizer leaves the lane open). -/
theorem sanitize_bms_ln_chain (objs : List Obj) (lane : Lane) (hlane : lane < NLANES) :
    chainFrom false (lnOf lane (sanitize_bms objs)) = true ∧
    ((lnOf lane (sanitize_bms objs)).length % 2 = 1 →
      ∃ pos, rposition (fun o => (to_type lane o).isSome) (sanitize_bms objs) = some pos ∧
        ((sanitize_bms objs).getD pos dObj).data.is_lnstart = false) ∧
    List.Pairwise (fun a b : Obj => a.time ≤ b.time) (lnOf lane (sanitize_bms objs)) := by
  have hbms : sanitize_bms objs =
      (sanitize to_type_eff (fun s types => (types, s))
        ((List.range NLANES).foldl (fun acc ln => lane_pass ln acc)
          (objs.mergeSort (fun a b => decide (a.time ≤ b.time)))) ()).1 := rfl
  have hsort₀ := mergeSort_time_sorted objs
  have hmem : lane ∈ List.range NLANES := List.mem_range.2 hlane
  obtain ⟨s1, t1, hdecomp⟩ := List.append_of_mem hmem
  have hnodup := List.nodup_range NLANES
  rw [hdecomp] at hnodup
  have hnotmem : lane ∉ t1 := (List.nodup_cons.1 (List.Nodup.of_append_right hnodup)).1
  have hfold : (List.range NLANES).foldl (fun acc ln => lane_pass ln acc)
      (objs.mergeSort (fun a b => decide (a.time ≤ b.time))) =
      t1.foldl (fun acc ln => lane_pass ln acc)
        (lane_pass lane (s1.foldl (fun acc ln => lane_pass ln acc)
          (objs.mergeSort (fun a b => decide (a.time ≤ b.time))))) := by
    rw [hdecomp, List.foldl_append, List.foldl_cons]
  have hsmid := foldl_lane_pass_sorted s1 _ hsort₀
  have hAsorted : List.Pairwise (fun a b : Obj => a.time ≤ b.time)
      (lane_pass lane (s1.foldl (fun acc ln => lane_pass ln acc)
        (objs.mergeSort (fun a b => decide (a.time ≤ b.time))))) :=
    pairwise_time_transport (demoted_time_rel (lane_pass_demoted lane _)) hsmid
  have hcore := lane_pass_chain lane (s1.foldl (fun acc ln => lane_pass ln acc)
    (objs.mergeSort (fun a b => decide (a.time ≤ b.time))))
  have hfix1 := foldl_lane_pass_fixedL lane t1 hnotmem
    (lane_pass lane (s1.foldl (fun acc ln => lane_pass ln acc)
      (objs.mergeSort (fun a b => decide (a.time ≤ b.time)))))
  have hEffDem := sanitize_demoted to_type_eff (fun s types => (types, s))
    (fun o hd => to_type_eff_none_of_bgm_deleted o hd)
    (t1.foldl (fun acc ln => lane_pass ln acc)
      (lane_pass lane (s1.foldl (fun acc ln => lane_pass ln acc)
        (objs.mergeSort (fun a b => decide (a.time ≤ b.time)))))).length _ (le_refl _) ()
  have hfix2 := hEffDem.imp (fun a b hab => demotedP_eff_fixedL lane a b hab)
  have hfix := forall₂_trans_gen (fixedL lane)
    (fun a b c h1 h2 => fixedL_trans lane a b c h1 h2) hfix1 hfix2
  obtain ⟨ht1, ht2, ht3⟩ := fixedL_transport lane hfix
  rw [hbms, hfold]
  refine ⟨?_, ?_, ?_⟩
  · rw [ht1]
    exact hcore.1
  · intro hodd
    rw [ht1] at hodd
    obtain ⟨pos, hq1, hq2⟩ := hcore.2 hodd
    refine ⟨pos, ?_, ?_⟩
    · rw [ht2, hq1]
    · rw [ht3 pos hq1]
      exact hq2
  · rw [ht1]
    exact List.Pairwise.sublist (List.filter_sublist _) hAsorted

/-- Counterexample to the literal claim C2: on the chart
`[LNStart lane0 at 0 (sound 5), Invisible lane0 at 1 (sound 6)]` the sanitizer keeps both
objects unchanged, so a retained `LNStart` has no matching `LNDone` anywhere and lane 0 is
left open at the end of the list (the retained `Invisible` note is the last lane-typed
object, so the unterminated-`LNStart` fix does not fire). -/
theorem sanitize_bms_open_ln_counterexample :
    sanitize_bms [⟨0, .LNStart 0 (some 5)⟩, ⟨1, .Invisible 0 (some 6)⟩] =
      [⟨0, .LNStart 0 (some 5)⟩, ⟨1, .Invisible 0 (some 6)⟩] ∧
    ¬ (∀ objs : List Obj, ∀ o ∈ sanitize_bms objs, o.data.is_lnstart = true →
        ∃ d ∈ sanitize_bms objs, d.data.is_lndone = true) := by
  have hout : sanitize_bms [⟨0, .LNStart 0 (some 5)⟩, ⟨1, .Invisible 0 (some 6)⟩] =
      [⟨0, .LNStart 0 (some 5)⟩, ⟨1, .Invisible 0 (some 6)⟩] := by
    unfold sanitize_bms
    rw [List.mergeSort_of_sorted (by decide)]
    decide
  refine ⟨hout, ?_⟩
  intro h
  obtain ⟨d, hd, hdone⟩ := h [⟨0, .LNStart 0 (some 5)⟩, ⟨1, .Invisible 0 (some 6)⟩]
    ⟨0, .LNStart 0 (some 5)⟩ (by rw [hout]; exact List.mem_cons_self _ _) rfl
  rw [hout] at hd
  rcases List.mem_cons.1 hd with rfl | hd2
  · exact Bool.noConfusion hdone
  · rcases List.mem_cons.1 hd2 with rfl | hd3
    · exact Bool.noConfusion hdone
    · exact absurd hd3 (List.not_mem_nil d)

theorem sanitize_bms_ln_chain_witness :
    (0 : Lane) < NLANES ∧
    (chainFrom false
        (lnOf 0 (sanitize_bms [⟨0, .LNStart 0 none⟩, ⟨1, .LNDone 0 none⟩])) = true ∧
      ((lnOf 0 (sanitize_bms [⟨0, .LNStart 0 none⟩, ⟨1, .LNDone 0 none⟩])).length % 2 = 1 →
        ∃ pos, rposition (fun o => (to_type 0 o).isSome)
            (sanitize_bms [⟨0, .LNStart 0 none⟩, ⟨1, .LNDone 0 none⟩]) = some pos ∧
          ((sanitize_bms [⟨0, .LNStart 0 none⟩,
              ⟨1, .LNDone 0 none⟩]).getD pos dObj).data.is_lnstart = false) ∧
      List.Pairwise (fun a b : Obj => a.time ≤ b.time)
        (lnOf 0 (sanitize_bms [⟨0, .LNStart 0 none⟩, ⟨1, .LNDone 0 none⟩]))) :=
  ⟨by decide,
   sanitize_bms_ln_chain [⟨0, .LNStart 0 none⟩, ⟨1, .LNDone 0 none⟩] 0 (by decide)⟩

--==================================================================================================
-- Measure-scaling round trip (C5)

theorem shorten_pos (shortens : List ℚ) (hpos : ∀ x ∈ shortens, 0 < x) (i : Int) :
    0 < shorten shortens i := by
  unfold shorten
  split
  · norm_num
  · rename_i hcond
    simp only [Bool.or_eq_true, decide_eq_true_eq, not_or, not_lt, not_le] at hcond
    have hin : i.toNat < shortens.length := hcond.2
    exact hpos (shortens.getD i.toNat 1) (by
      rw [List.getD_eq_getElem _ _ hin]
      exact List.getElem_mem hin)

theorem sumShorten_self (shortens : List ℚ) (a : Int) : sumShorten shortens a a = 0 := by
  unfold sumShorten
  simp

theorem sumShorten_cons (shortens : List ℚ) (a b : Int) (h : a < b) :
    sumShorten shortens a b = shorten shortens a + sumShorten shortens (a + 1) b := by
  unfold sumShorten
  have hn : (b - a).toNat = (b - (a + 1)).toNat + 1 := by omega
  rw [hn, List.range_succ_eq_map, List.map_cons, List.sum_cons, List.map_map]
  congr 1
  · norm_num
  · apply congrArg
    apply List.map_congr_left
    intro k _
    show shorten shortens (a + ((k + 1 : Nat) : Int)) = shorten shortens (a + 1 + (k : Int))
    congr 1
    push_cast
    ring

theorem adjTimeLoop_unfold (shortens : List ℚ) (hpos : ∀ x ∈ shortens, 0 < x)
    (offset : ℚ) (i : Int) :
    adjTimeLoop shortens hpos offset i =
      if offset ≥ shorten shortens i then
        adjTimeLoop shortens hpos (offset - shorten shortens i) (i + 1)
      else (i : ℚ) + offset / shorten shortens i := by
  rw [adjTimeLoop]

theorem adjTimeLoop_measure_lt (shortens : List ℚ) (hpos : ∀ x ∈ shortens, 0 < x)
    (offset : ℚ) (i : Int) (hge : shorten shortens i ≤ offset) :
    ((shortens.length : Int) - (i + 1)).toNat + (⌈offset - shorten shortens i⌉).toNat <
      ((shortens.length : Int) - i).toNat + (⌈offset⌉).toNat := by
  have hcur : 0 < shorten shortens i := shorten_pos shortens hpos i
  have hofu : 0 < ⌈offset⌉ := Int.ceil_pos.2 (lt_of_lt_of_le hcur hge)
  have hmono : ⌈offset - shorten shortens i⌉ ≤ ⌈offset⌉ := Int.ceil_le_ceil (by linarith)
  by_cases hi : (shortens.length : Int) - i ≤ 0
  · have hcond : (decide (i < 0) || decide (shortens.length ≤ i.toNat)) = true := by
      rcases lt_or_le i 0 with h2 | h2
      · simp [h2]
      · simp only [Bool.or_eq_true, decide_eq_true_eq]
        right
        omega
    have hcur1 : shorten shortens i = 1 := by
      unfold shorten
      rw [if_pos hcond]
    have hstep : ⌈offset - shorten shortens i⌉ = ⌈offset⌉ - 1 := by
      rw [hcur1, show offset - 1 = offset + ((-1 : Int) : ℚ) from by push_cast; ring,
        Int.ceil_add_int]
      omega
    omega
  · push_neg at hi
    omega

theorem adjTimeLoop_spec_base (shortens : List ℚ) (hpos : ∀ x ∈ shortens, 0 < x)
    (offset : ℚ) (i : Int) (h0 : 0 ≤ offset) (hlt : ¬ offset ≥ shorten shortens i) :
    i ≤ ⌊adjTimeLoop shortens hpos offset i⌋ ∧
    (adjTimeLoop shortens hpos offset i -
        ((⌊adjTimeLoop shortens hpos offset i⌋ : Int) : ℚ)) *
      shorten shortens ⌊adjTimeLoop shortens hpos offset i⌋ +
      sumShorten shortens i ⌊adjTimeLoop shortens hpos offset i⌋ = offset := by
  have hcur : 0 < shorten shortens i := shorten_pos shortens hpos i
  have hlt' : offset < shorten shortens i := lt_of_not_ge hlt
  have hfr0 : (0:ℚ) ≤ offset / shorten shortens i := div_nonneg h0 (le_of_lt hcur)
  have hfr1 : offset / shorten shortens i < 1 := (div_lt_one hcur).2 hlt'
  have hfl : ⌊(i : ℚ) + offset / shorten shortens i⌋ = i := by
    rw [Int.floor_int_add]
    have h00 : ⌊offset / shorten shortens i⌋ = 0 :=
      Int.floor_eq_zero_iff.2 ⟨hfr0, hfr1⟩
    omega
  rw [adjTimeLoop_unfold, if_neg hlt, hfl]
  refine ⟨le_refl i, ?_⟩
  rw [sumShorten_self, add_zero, add_sub_cancel_left,
    div_mul_cancel₀ _ (ne_of_gt hcur)]

theorem adjTimeLoop_spec (shortens : List ℚ) (hpos : ∀ x ∈ shortens, 0 < x) :
    ∀ (N : Nat) (offset : ℚ) (i : Int),
      ((shortens.length : Int) - i).toNat + (⌈offset⌉).toNat ≤ N → 0 ≤ offset →
      i ≤ ⌊adjTimeLoop shortens hpos offset i⌋ ∧
      (adjTimeLoop shortens hpos offset i -
          ((⌊adjTimeLoop shortens hpos offset i⌋ : Int) : ℚ)) *
        shorten shortens ⌊adjTimeLoop shortens hpos offset i⌋ +
        sumShorten shortens i ⌊adjTimeLoop shortens hpos offset i⌋ = offset := by
  intro N
  induction N with
  | zero =>
    intro offset i hN h0
    by_cases hge : offset ≥ shorten shortens i
    · exfalso
      have := adjTimeLoop_measure_lt shortens hpos offset i hge
      omega
    · exact adjTimeLoop_spec_base shortens hpos offset i h0 hge
  | succ N ih =>
    intro offset i hN h0
    by_cases hge : offset ≥ shorten shortens i
    · have hcur : 0 < shorten shortens i := shorten_pos shortens hpos i
      have hmlt := adjTimeLoop_measure_lt shortens hpos offset i hge
      have h0' : 0 ≤ offset - shorten shortens i := by linarith
      obtain ⟨ih1, ih2⟩ := ih (offset - shorten shortens i) (i + 1) (by omega) h0'
      rw [adjTimeLoop_unfold, if_pos hge]
      refine ⟨by omega, ?_⟩
      rw [sumShorten_cons shortens i _ (by omega)]
      linarith
    · exact adjTimeLoop_spec_base shortens hpos offset i h0 hge

/-- Claim C5: with every stored scaling factor positive, `adjust_object_time(base, 0)`
equals `base`, and for every non-negative scaled distance `d`,
`adjust_object_position(base, adjust_object_time(base, d))` recovers `d` - the
measure-scaling position/distance transforms are mutually inverse. -/
theorem adjust_round_trip (shortens : List ℚ) (hpos : ∀ x ∈ shortens, 0 < x)
    (base d : ℚ) (hd : 0 ≤ d) :
    adjust_object_time shortens hpos base 0 = base ∧
    adjust_object_position shortens base (adjust_object_time shortens hpos base d) = d := by
  have hb0 : (0:ℚ) ≤ base - ((⌊base⌋ : Int) : ℚ) := by
    have := Int.floor_le base
    linarith
  have hb1 : base - ((⌊base⌋ : Int) : ℚ) < 1 := by
    have := Int.lt_floor_add_one base
    linarith
  have hsh := shorten_pos shortens hpos ⌊base⌋
  constructor
  · show (if (0:ℚ) < (1 - (base - ((⌊base⌋ : Int) : ℚ))) * shorten shortens ⌊base⌋
        then base + 0 / shorten shortens ⌊base⌋
        else adjTimeLoop shortens hpos
          (0 - (1 - (base - ((⌊base⌋ : Int) : ℚ))) * shorten shortens ⌊base⌋)
          (⌊base⌋ + 1)) = base
    rw [if_pos (mul_pos (by linarith) hsh), zero_div, add_zero]
  · by_cases hcase : d < (1 - (base - ((⌊base⌋ : Int) : ℚ))) * shorten shortens ⌊base⌋
    · have hT : adjust_object_time shortens hpos base d =
          base + d / shorten shortens ⌊base⌋ := by
        show (if d < (1 - (base - ((⌊base⌋ : Int) : ℚ))) * shorten shortens ⌊base⌋
            then base + d / shorten shortens ⌊base⌋
            else adjTimeLoop shortens hpos
              (d - (1 - (base - ((⌊base⌋ : Int) : ℚ))) * shorten shortens ⌊base⌋)
              (⌊base⌋ + 1)) = base + d / shorten shortens ⌊base⌋
        rw [if_pos hcase]
      have hdiv0 : (0:ℚ) ≤ d / shorten shortens ⌊base⌋ := div_nonneg hd (le_of_lt hsh)
      have hdiv1 : d / shorten shortens ⌊base⌋ < 1 - (base - ((⌊base⌋ : Int) : ℚ)) := by
        rw [div_lt_iff hsh]
        linarith
      have hfloor : ⌊base + d / shorten shortens ⌊base⌋⌋ = ⌊base⌋ := by
        have heq : base + d / shorten shortens ⌊base⌋ =
            ((⌊base⌋ : Int) : ℚ) +
              ((base - ((⌊base⌋ : Int) : ℚ)) + d / shorten shortens ⌊base⌋) := by
          ring
        have h00 : ⌊base - ((⌊base⌋ : Int) : ℚ) + d / shorten shortens ⌊base⌋⌋ = 0 :=
          Int.floor_eq_zero_iff.2 ⟨by linarith, by linarith⟩
        rw [heq, Int.floor_int_add, h00, add_zero]
      rw [hT]
      show (base + d / shorten shortens ⌊base⌋ -
            ((⌊base + d / shorten shortens ⌊base⌋⌋ : Int) : ℚ)) *
          shorten shortens ⌊base + d / shorten shortens ⌊base⌋⌋ -
          (base - ((⌊base⌋ : Int) : ℚ)) * shorten shortens ⌊base⌋ +
          sumShorten shortens ⌊base⌋ ⌊base + d / shorten shortens ⌊base⌋⌋ = d
      rw [hfloor, sumShorten_self, add_zero,
        show (base + d / shorten shortens ⌊base⌋ - ((⌊base⌋ : Int) : ℚ)) *
            shorten shortens ⌊base⌋ -
            (base - ((⌊base⌋ : Int) : ℚ)) * shorten shortens ⌊base⌋ =
            (d / shorten shortens ⌊base⌋) * shorten shortens ⌊base⌋ from by ring,
        div_mul_cancel₀ _ (ne_of_gt hsh)]
    · have hT : adjust_object_time shortens hpos base d =
          adjTimeLoop shortens hpos
            (d - (1 - (base - ((⌊base⌋ : Int) : ℚ))) * shorten shortens ⌊base⌋)
            (⌊base⌋ + 1) := by
        show (if d < (1 - (base - ((⌊base⌋ : Int) : ℚ))) * shorten shortens ⌊base⌋
            then base + d / shorten shortens ⌊base⌋
            else adjTimeLoop shortens hpos
              (d - (1 - (base - ((⌊base⌋ : Int) : ℚ))) * shorten shortens ⌊base⌋)
              (⌊base⌋ + 1)) =
          adjTimeLoop shortens hpos
            (d - (1 - (base - ((⌊base⌋ : Int) : ℚ))) * shorten shortens ⌊base⌋)
            (⌊base⌋ + 1)
        rw [if_neg hcase]
      push_neg at hcase
      have hoff0 : 0 ≤ d - (1 - (base - ((⌊base⌋ : Int) : ℚ))) * shorten shortens ⌊base⌋ :=
        by linarith
      obtain ⟨hs1, hs2⟩ := adjTimeLoop_spec shortens hpos
        (((shortens.length : Int) - (⌊base⌋ + 1)).toNat +
          (⌈d - (1 - (base - ((⌊base⌋ : Int) : ℚ))) * shorten shortens ⌊base⌋⌉).toNat)
        (d - (1 - (base - ((⌊base⌋ : Int) : ℚ))) * shorten shortens ⌊base⌋)
        (⌊base⌋ + 1) (le_refl _) hoff0
      rw [hT]
      show (adjTimeLoop shortens hpos
            (d - (1 - (base - ((⌊base⌋ : Int) : ℚ))) * shorten shortens ⌊base⌋)
            (⌊base⌋ + 1) -
            ((⌊adjTimeLoop shortens hpos
              (d - (1 - (base - ((⌊base⌋ : Int) : ℚ))) * shorten shortens ⌊base⌋)
              (⌊base⌋ + 1)⌋ : Int) : ℚ)) *
          shorten shortens ⌊adjTimeLoop shortens hpos
            (d - (1 - (base - ((⌊base⌋ : Int) : ℚ))) * shorten shortens ⌊base⌋)
            (⌊base⌋ + 1)⌋ -
          (base - ((⌊base⌋ : Int) : ℚ)) * shorten shortens ⌊base⌋ +
          sumShorten shortens ⌊base⌋ ⌊adjTimeLoop shortens hpos
            (d - (1 - (base - ((⌊base⌋ : Int) : ℚ))) * shorten shortens ⌊base⌋)
            (⌊base⌋ + 1)⌋ = d
      rw [sumShorten_cons shortens ⌊base⌋ _ (by omega)]
      linarith

theorem adjust_round_trip_witness :
    (∀ x ∈ [(1:ℚ)/2], 0 < x) ∧ (0:ℚ) ≤ 2 ∧
    (adjust_object_time [(1:ℚ)/2]
        (fun x hx => by rw [List.mem_singleton] at hx; rw [hx]; norm_num) 0 0 = 0 ∧
      adjust_object_position [(1:ℚ)/2] 0
        (adjust_object_time [(1:ℚ)/2]
          (fun x hx => by rw [List.mem_singleton] at hx; rw [hx]; norm_num) 0 2) = 2) :=
  ⟨fun x hx => by rw [List.mem_singleton] at hx; rw [hx]; norm_num,
   by norm_num,
   adjust_round_trip [(1:ℚ)/2]
     (fun x hx => by rw [List.mem_singleton] at hx; rw [hx]; norm_num) 0 2 (by norm_num)⟩
